import Mathlib

/-!
Verification of the `plant_balancer` simulation core.

This file shallowly embeds `plant_balancer/models.py` and
`plant_balancer/simulator.py` in Lean 4 and proves the spec's testable
properties about them.

Modelling conventions:
* Python `float` is modelled as `ℚ` (the arithmetic performed by the code is
  plain field arithmetic; exact results imply every stated floating-point
  tolerance).
* Python `dict` is modelled as an insertion-ordered association list
  `List (String × α)` with unique keys maintained by the update operation
  `dset` (update in place if the key is present, append otherwise), which is
  exactly the Python dict semantics.
* `datetime.date` is modelled as `Nat` (its ordinal); only its linear order is
  used by the code.
* Exceptions are modelled with `Except SimError`.
-/

namespace PlantBalancer

/-- Python `dict.get(k)`: the binding of `k`, if any (keys are unique, so
"first binding" is "the binding"). -/
def dget {α : Type} : List (String × α) → String → Option α
  | [], _ => none
  | p :: rest, k => if p.1 = k then some p.2 else dget rest k

/-- Python `d[k] = v`: update in place when present, append when absent. -/
def dset {α : Type} : List (String × α) → String → α → List (String × α)
  | [], k, v => [(k, v)]
  | p :: rest, k, v => if p.1 = k then (k, v) :: rest else p :: dset rest k v

/-- Python `d.get(k, 0.0)`. -/
def dgetD (d : List (String × ℚ)) (k : String) : ℚ :=
  (dget d k).getD 0

/-- Python `defaultdict(float)` update `d[k] += v`. -/
def dadd (d : List (String × ℚ)) (k : String) (v : ℚ) : List (String × ℚ) :=
  dset d k (dgetD d k + v)

/-- Truthiness of an `Optional[str]`: `None` and `""` are falsy. -/
def optTruthy (s : Option String) : Bool :=
  match s with
  | none => false
  | some v => v != ""

/-- `models.Resource`. -/
structure Resource where
  id : String
  name : String
  unit : String
deriving Repr, DecidableEq

/-- `models.MachineGroup`. -/
structure MachineGroup where
  id : String
  name : String
deriving Repr, DecidableEq

/-- `models.Machine`. -/
structure Machine where
  id : String
  name : String
  group_id : String
  capacity : List (String × ℚ) := []
deriving Repr, DecidableEq

/-- `models.RecipeStep`. -/
structure RecipeStep where
  name : String
  target : String
  machine_id : Option String := none
  group_id : Option String := none
  required_group : Option String := none
  allocation : Option (List (String × ℚ)) := none
  capacity_usage : List (String × ℚ) := []
  resource_changes : List (String × ℚ) := []
deriving Repr, DecidableEq

/-- `models.Product`. -/
structure Product where
  id : String
  name : String
  unit : String
  steps : List RecipeStep
deriving Repr, DecidableEq

/-- `models.ProductionOrder` (`date` is the date's ordinal). -/
structure ProductionOrder where
  date : Nat
  product_id : String
  machine_id : String
  quantity : ℚ
deriving Repr, DecidableEq

/-- `models.MachineUsage` (accumulator for one machine on one day). -/
structure MachineUsage where
  machine : Machine
  capacity_used : List (String × ℚ) := []
  resource_balance : List (String × ℚ) := []
deriving Repr, DecidableEq

/-- The shared loop body of `MachineUsage.add_capacity` and
`MachineUsage.add_resource_balance`: add each value to its key's running
total, skipping zero-valued contributions. -/
def addEntries (m : List (String × ℚ)) (values : List (String × ℚ)) : List (String × ℚ) :=
  values.foldl (fun acc p => if p.2 = 0 then acc else dset acc p.1 (dgetD acc p.1 + p.2)) m

/-- `models.MachineUsage.add_capacity`. -/
def MachineUsage.add_capacity (u : MachineUsage) (values : List (String × ℚ)) : MachineUsage :=
  { u with capacity_used := addEntries u.capacity_used values }

/-- `models.MachineUsage.add_resource_balance`. -/
def MachineUsage.add_resource_balance (u : MachineUsage) (values : List (String × ℚ)) :
    MachineUsage :=
  { u with resource_balance := addEntries u.resource_balance values }

/-- One record appended by `DaySummary.capacity_alerts`. -/
structure Alert where
  machine_id : String
  machine_name : String
  capacity_key : String
  used : ℚ
  limit : ℚ
deriving Repr, DecidableEq

/-- `models.DaySummary`. -/
structure DaySummary where
  date : Nat
  product_quantities : List (String × ℚ)
  machine_usage : List (String × MachineUsage)
  resource_balance : List (String × ℚ)
deriving Repr, DecidableEq

/-- The inner loop of `DaySummary.capacity_alerts` for one `MachineUsage`:
alert for every used capacity key whose declared limit is neither null nor
zero and strictly exceeded. -/
def machineAlerts (u : MachineUsage) : List Alert :=
  u.capacity_used.foldl (fun acc p =>
    match dget u.machine.capacity p.1 with
    | none => acc
    | some c =>
      if c ≠ 0 ∧ c < p.2 then
        acc ++ [⟨u.machine.id, u.machine.name, p.1, p.2, c⟩]
      else acc) []

/-- `models.DaySummary.capacity_alerts`. -/
def DaySummary.capacity_alerts (ds : DaySummary) : List Alert :=
  ds.machine_usage.foldl (fun acc p => acc ++ machineAlerts p.2) []

/-- `models.Plant` (the `machines_by_group` index is recomputed on demand by
`machines_in_group` below, with identical semantics). -/
structure Plant where
  resources : List (String × Resource)
  machine_groups : List (String × MachineGroup)
  machines : List (String × Machine)
  products : List (String × Product)
deriving Repr, DecidableEq

/-- The error cases of `simulator.SimulationError`, the `KeyError`s of
`Plant.get_machine` / `Plant.get_product` / `Plant.machines_in_group`, and
the `ValueError`s of `machines_in_group` and `_normalize_allocation`. -/
inductive SimError where
  | noMachines : SimError
  | negAllocation (machine_id : String) : SimError
  | noMatchingAllocation : SimError
  | unknownMachine (machine_id : String) : SimError
  | unknownProduct (product_id : String) : SimError
  | unknownGroup (group_id : String) : SimError
  | emptyGroup (group_id : String) : SimError
  | groupMismatch (product_id machine_id required : String) : SimError
  | missingMachineId (step : String) : SimError
  | missingGroupId (step : String) : SimError
  | noValidAllocation (step : String) : SimError
  | unknownTarget (target : String) : SimError
deriving Repr, DecidableEq

instance {E A : Type} [DecidableEq E] [DecidableEq A] : DecidableEq (Except E A) := fun x y =>
  match x, y with
  | .error e1, .error e2 =>
    if h : e1 = e2 then isTrue (by rw [h])
    else isFalse (fun hh => h (Except.error.inj hh))
  | .error e1, .ok a2 => isFalse (fun hh => Except.noConfusion hh)
  | .ok a1, .error e2 => isFalse (fun hh => Except.noConfusion hh)
  | .ok a1, .ok a2 =>
    if h : a1 = a2 then isTrue (by rw [h])
    else isFalse (fun hh => h (Except.ok.inj hh))

/-- `models.Plant.get_machine`. -/
def Plant.get_machine (p : Plant) (mid : String) : Except SimError Machine :=
  match dget p.machines mid with
  | some m => .ok m
  | none => .error (.unknownMachine mid)

/-- `models.Plant.get_product`. -/
def Plant.get_product (p : Plant) (pid : String) : Except SimError Product :=
  match dget p.products pid with
  | some pr => .ok pr
  | none => .error (.unknownProduct pid)

/-- `models.Plant.machines_in_group`: the `machines_by_group` index built in
`__post_init__` maps every declared group id (and every group id referenced
by some machine) to the machines of that group in registration order;
a missing key raises `KeyError`, an empty member list raises `ValueError`. -/
def Plant.machines_in_group (p : Plant) (gid : String) : Except SimError (List Machine) :=
  let members := (p.machines.map (fun q => q.2)).filter (fun m => m.group_id == gid)
  if (∃ g ∈ p.machine_groups, g.1 = gid) ∨ members ≠ [] then
    if members = [] then .error (.emptyGroup gid) else .ok members
  else .error (.unknownGroup gid)

/-- The machine loop of `_normalize_allocation`: collect the weights of the
group machines listed in `alloc` (rejecting negative weights) and their sum. -/
def normAllocLoop (alloc : List (String × ℚ)) :
    List Machine → List (String × ℚ) → ℚ → Except SimError (List (String × ℚ) × ℚ)
  | [], normalized, total => .ok (normalized, total)
  | m :: rest, normalized, total =>
    match dget alloc m.id with
    | none => normAllocLoop alloc rest normalized total
    | some v =>
      if v < 0 then .error (.negAllocation m.id)
      else normAllocLoop alloc rest (dset normalized m.id v) (total + v)

/-- `simulator._normalize_allocation`. -/
def normalize_allocation (machines : List Machine) (allocation : Option (List (String × ℚ))) :
    Except SimError (List (String × ℚ)) :=
  if machines = [] then .error .noMachines
  else
    let explicit := allocation.getD []
    if explicit = [] then
      .ok (machines.foldl (fun acc m => dset acc m.id (1 / (machines.length : ℚ))) [])
    else
      match normAllocLoop explicit machines [] 0 with
      | .error e => .error e
      | .ok (normalized, total) =>
        if normalized = [] then .error .noMatchingAllocation
        else if total = 0 then
          .ok (normalized.map (fun p => (p.1, 1 / (normalized.length : ℚ))))
        else
          .ok (normalized.map (fun p => (p.1, p.2 / total)))

/-- The final loop of `_resolve_step_machines`'s `group` branch: keep the
machines of the group whose share is present and truthy (nonzero). -/
def resolveLoop (allocation : List (String × ℚ)) : List Machine → List (Machine × ℚ)
  | [] => []
  | m :: rest =>
    match dget allocation m.id with
    | some s =>
      if s ≠ 0 then (m, s) :: resolveLoop allocation rest
      else resolveLoop allocation rest
    | none => resolveLoop allocation rest

/-- `simulator._resolve_step_machines`. -/
def resolve_step_machines (step : RecipeStep) (order : ProductionOrder) (plant : Plant) :
    Except SimError (List (Machine × ℚ)) :=
  if step.target = "order_machine" then
    match plant.get_machine order.machine_id with
    | .error e => .error e
    | .ok machine =>
      if optTruthy step.required_group ∧ machine.group_id ≠ step.required_group.getD "" then
        .error (.groupMismatch order.product_id machine.id (step.required_group.getD ""))
      else .ok [(machine, 1)]
  else if step.target = "machine" then
    if optTruthy step.machine_id then
      match plant.get_machine (step.machine_id.getD "") with
      | .error e => .error e
      | .ok machine => .ok [(machine, 1)]
    else .error (.missingMachineId step.name)
  else if step.target = "group" then
    if optTruthy step.group_id then
      match plant.machines_in_group (step.group_id.getD "") with
      | .error e => .error e
      | .ok machines =>
        match normalize_allocation machines step.allocation with
        | .error e => .error e
        | .ok allocation =>
          let resolved := resolveLoop allocation machines
          if resolved = [] then .error (.noValidAllocation step.name)
          else .ok resolved
    else .error (.missingGroupId step.name)
  else .error (.unknownTarget step.target)

/-- `simulator._scale_values`. -/
def scale_values (values : List (String × ℚ)) (factor : ℚ) : List (String × ℚ) :=
  values.map (fun p => (p.1, p.2 * factor))

/-- The mutable per-day accumulators of `simulate`'s day loop. -/
structure DayState where
  product_totals : List (String × ℚ)
  machine_usage : List (String × MachineUsage)
  resource_balance : List (String × ℚ)
deriving Repr, DecidableEq

/-- The body of `simulate`'s `for machine, share in machines` loop: scale the
step's maps by `order.quantity * share` and accumulate them into the machine's
usage (created on first touch by `setdefault`) and the day's resource balance. -/
def applyShare (order : ProductionOrder) (step : RecipeStep) (st : DayState)
    (ms : Machine × ℚ) : DayState :=
  let qf := order.quantity * ms.2
  let usage0 := (dget st.machine_usage ms.1.id).getD ⟨ms.1, [], []⟩
  let capacity_add := scale_values step.capacity_usage qf
  let usage1 := usage0.add_capacity capacity_add
  let resource_add := scale_values step.resource_changes qf
  let usage2 := usage1.add_resource_balance resource_add
  { st with
    machine_usage := dset st.machine_usage ms.1.id usage2
    resource_balance := resource_add.foldl (fun rb p => dadd rb p.1 p.2) st.resource_balance }

/-- `simulate`'s `for step in product.steps` loop. -/
def applyStepsLoop (plant : Plant) (order : ProductionOrder) :
    List RecipeStep → DayState → Except SimError DayState
  | [], st => .ok st
  | step :: rest, st =>
    match resolve_step_machines step order plant with
    | .error e => .error e
    | .ok pairs => applyStepsLoop plant order rest (pairs.foldl (applyShare order step) st)

/-- `simulate`'s per-order body: look up the product, add the order quantity
to the product's daily total, then process every recipe step. -/
def applyOrder (plant : Plant) (st : DayState) (order : ProductionOrder) :
    Except SimError DayState :=
  match plant.get_product order.product_id with
  | .error e => .error e
  | .ok product =>
    applyStepsLoop plant order product.steps
      { st with product_totals := dadd st.product_totals product.id order.quantity }

/-- `simulate`'s `for order in day_orders` loop. -/
def applyOrders (plant : Plant) : List ProductionOrder → DayState → Except SimError DayState
  | [], st => .ok st
  | o :: rest, st =>
    match applyOrder plant st o with
    | .error e => .error e
    | .ok st2 => applyOrders plant rest st2

/-- One iteration of `simulate`'s day loop: aggregate the orders of one date
into a `DaySummary` (the freeze/copy step is the identity on values). -/
def day_summary_for (plant : Plant) (d : Nat) (dayOrders : List ProductionOrder) :
    Except SimError DaySummary :=
  match applyOrders plant dayOrders ⟨[], [], []⟩ with
  | .error e => .error e
  | .ok st => .ok ⟨d, st.product_totals, st.machine_usage, st.resource_balance⟩

/-- `sorted(orders_by_day.keys())`: the distinct order dates in ascending
order. -/
def sortedDates (plan : List ProductionOrder) : List Nat :=
  ((plan.map (fun o => o.date)).dedup).insertionSort (fun a b => a ≤ b)

/-- `simulate`'s day loop over the sorted distinct dates;
`orders_by_day[d]` is the plan's orders dated `d` in plan order. -/
def simulateDays (plant : Plant) (plan : List ProductionOrder) :
    List Nat → Except SimError (List DaySummary)
  | [] => .ok []
  | d :: rest =>
    match day_summary_for plant d (plan.filter (fun o => o.date == d)) with
    | .error e => .error e
    | .ok ds =>
      match simulateDays plant plan rest with
      | .error e => .error e
      | .ok tail => .ok (ds :: tail)

/-- `models.SimulationResult`. -/
structure SimulationResult where
  plant : Plant
  days : List DaySummary
deriving Repr, DecidableEq

/-- `simulator.simulate`. -/
def simulate (plant : Plant) (plan : List ProductionOrder) :
    Except SimError SimulationResult :=
  match simulateDays plant plan (sortedDates plan) with
  | .error e => .error e
  | .ok days => .ok ⟨plant, days⟩

/-- Machine-table well-formedness established by the configuration loader
(`config._load_machines` keys every machine by its own `id`): the machine
dict's keys are unique and each stored machine's `id` field is its key. -/
def Plant.MachWF (p : Plant) : Prop :=
  (p.machines.map (fun q => q.1)).Nodup ∧ ∀ q ∈ p.machines, q.2.id = q.1

instance (p : Plant) : Decidable p.MachWF := by
  unfold Plant.MachWF
  infer_instance

/-! ### Dictionary lemmas -/

theorem dget_nil {α : Type} (k : String) : dget ([] : List (String × α)) k = none := rfl

theorem dget_cons {α : Type} (p : String × α) (rest : List (String × α)) (k : String) :
    dget (p :: rest) k = if p.1 = k then some p.2 else dget rest k := rfl

theorem dget_dset {α : Type} (d : List (String × α)) (k : String) (v : α) (k2 : String) :
    dget (dset d k v) k2 = if k2 = k then some v else dget d k2 := by
  induction d with
  | nil =>
    by_cases h : k2 = k
    · simp [dset, dget_cons, dget_nil, h]
    · have h2 : ¬ k = k2 := fun hh => h hh.symm
      simp [dset, dget_cons, dget_nil, h, h2]
  | cons p rest ih =>
    by_cases h1 : p.1 = k
    · by_cases h2 : k2 = k
      · simp [dset, dget_cons, h1, h2]
      · have h3 : ¬ k = k2 := fun hh => h2 hh.symm
        have h4 : ¬ p.1 = k2 := fun hh => h2 (h1 ▸ hh).symm
        simp [dset, dget_cons, h1, h2, h3, h4]
    · by_cases h2 : p.1 = k2
      · have hk : ¬ k2 = k := fun h => h1 (h ▸ h2)
        simp [dset, dget_cons, h1, h2, hk]
      · simp [dset, dget_cons, h1, h2, ih]

theorem dget_append_of_none {α : Type} {d1 : List (String × α)} {k : String}
    (h : dget d1 k = none) (d2 : List (String × α)) :
    dget (d1 ++ d2) k = dget d2 k := by
  induction d1 with
  | nil => rfl
  | cons p rest ih =>
    rw [dget_cons] at h
    by_cases h1 : p.1 = k
    · rw [if_pos h1] at h
      exact absurd h (by simp)
    · rw [if_neg h1] at h
      rw [List.cons_append, dget_cons, if_neg h1]
      exact ih h

theorem dget_append_of_some {α : Type} {d1 : List (String × α)} {k : String} {v : α}
    (h : dget d1 k = some v) (d2 : List (String × α)) :
    dget (d1 ++ d2) k = some v := by
  induction d1 with
  | nil => exact absurd h (by rw [dget_nil]; simp)
  | cons p rest ih =>
    rw [dget_cons] at h
    by_cases h1 : p.1 = k
    · rw [if_pos h1] at h
      rw [List.cons_append, dget_cons, if_pos h1]
      exact h
    · rw [if_neg h1] at h
      rw [List.cons_append, dget_cons, if_neg h1]
      exact ih h

theorem dget_eq_none_iff {α : Type} (d : List (String × α)) (k : String) :
    dget d k = none ↔ k ∉ d.map (fun p => p.1) := by
  induction d with
  | nil => simp [dget_nil]
  | cons p rest ih =>
    rw [dget_cons]
    by_cases h1 : p.1 = k
    · simp [h1]
    · rw [if_neg h1, ih]
      simp only [List.map_cons, List.mem_cons, not_or]
      constructor
      · intro h
        exact ⟨fun hh => h1 hh.symm, h⟩
      · exact fun h => h.2

theorem dget_mem {α : Type} {d : List (String × α)} {k : String} {v : α}
    (h : dget d k = some v) : (k, v) ∈ d := by
  induction d with
  | nil => exact absurd h (by rw [dget_nil]; simp)
  | cons p rest ih =>
    rw [dget_cons] at h
    by_cases h1 : p.1 = k
    · rw [if_pos h1, Option.some_inj] at h
      have hp : p = (k, v) := by
        obtain ⟨a, b⟩ := p
        simp only at h1 h
        rw [h1, h]
      rw [hp]
      exact List.mem_cons_self _ _
    · rw [if_neg h1] at h
      exact List.mem_cons_of_mem _ (ih h)

theorem dset_of_absent {α : Type} {d : List (String × α)} {k : String}
    (h : dget d k = none) (v : α) : dset d k v = d ++ [(k, v)] := by
  induction d with
  | nil => rfl
  | cons p rest ih =>
    rw [dget_cons] at h
    by_cases h1 : p.1 = k
    · rw [if_pos h1] at h
      exact absurd h (by simp)
    · rw [if_neg h1] at h
      simp [dset, h1, ih h]

theorem dget_dadd (d : List (String × ℚ)) (k : String) (v : ℚ) (k2 : String) :
    dget (dadd d k v) k2 = if k2 = k then some (dgetD d k + v) else dget d k2 := by
  simp [dadd, dget_dset]

theorem dgetD_dadd (d : List (String × ℚ)) (k : String) (v : ℚ) (k2 : String) :
    dgetD (dadd d k v) k2 = if k2 = k then dgetD d k + v else dgetD d k2 := by
  by_cases h : k2 = k <;> simp [dgetD, dget_dadd, h]

/-! ### Allocation lemmas -/

/-- Sum of a dict's values. -/
def dsum (d : List (String × ℚ)) : ℚ := (d.map (fun p => p.2)).sum

/-- The `(machine-id, weight)` pairs of the group machines that carry an
explicit allocation entry, in group order: the contents of the `normalized`
dict built by `_normalize_allocation`'s machine loop. -/
def matchedWeights (alloc : List (String × ℚ)) (ms : List Machine) : List (String × ℚ) :=
  ms.filterMap (fun m => (dget alloc m.id).map (fun v => (m.id, v)))

theorem dsum_nil : dsum [] = 0 := rfl

theorem dsum_cons (p : String × ℚ) (d : List (String × ℚ)) :
    dsum (p :: d) = p.2 + dsum d := by
  simp [dsum]

theorem dsum_append (d1 d2 : List (String × ℚ)) :
    dsum (d1 ++ d2) = dsum d1 + dsum d2 := by
  simp [dsum]

theorem matchedWeights_cons (alloc : List (String × ℚ)) (m : Machine) (rest : List Machine) :
    matchedWeights alloc (m :: rest) =
      match dget alloc m.id with
      | some v => (m.id, v) :: matchedWeights alloc rest
      | none => matchedWeights alloc rest := by
  cases hm : dget alloc m.id <;> simp [matchedWeights, List.filterMap_cons, hm]

/-- Characterization of `_normalize_allocation`'s machine loop when it
returns: it appends the matched weights to the accumulator and adds their
sum to the running total. -/
theorem normAllocLoop_ok (alloc : List (String × ℚ)) :
    ∀ (ms : List Machine) (acc : List (String × ℚ)) (t : ℚ)
      (res : List (String × ℚ)) (tot : ℚ),
    (∀ m ∈ ms, dget acc m.id = none) →
    (ms.map (fun m => m.id)).Nodup →
    normAllocLoop alloc ms acc t = .ok (res, tot) →
    res = acc ++ matchedWeights alloc ms ∧ tot = t + dsum (matchedWeights alloc ms) := by
  intro ms
  induction ms with
  | nil =>
    intro acc t res tot _ _ h
    simp only [normAllocLoop, Except.ok.injEq, Prod.mk.injEq] at h
    simp [matchedWeights, dsum_nil, h.1.symm, h.2.symm]
  | cons m rest ih =>
    intro acc t res tot hacc hnd h
    simp only [normAllocLoop] at h
    rw [List.map_cons, List.nodup_cons] at hnd
    cases hm : dget alloc m.id with
    | none =>
      simp only [hm] at h
      have := ih acc t res tot (fun m2 hm2 => hacc m2 (List.mem_cons_of_mem _ hm2)) hnd.2 h
      rw [matchedWeights_cons, hm]
      exact this
    | some v =>
      simp only [hm] at h
      by_cases hv : v < 0
      · rw [if_pos hv] at h
        exact absurd h (by simp)
      · rw [if_neg hv] at h
        have habs : dget acc m.id = none := hacc m (List.mem_cons_self _ _)
        rw [dset_of_absent habs] at h
        have hacc2 : ∀ m2 ∈ rest, dget (acc ++ [(m.id, v)]) m2.id = none := by
          intro m2 hm2
          have hne : ¬ m.id = m2.id := fun hh =>
            hnd.1 (hh ▸ (List.mem_map.mpr ⟨m2, hm2, rfl⟩))
          rw [dget_append_of_none (hacc m2 (List.mem_cons_of_mem _ hm2))]
          simp [dget_cons, dget_nil, hne]
        obtain ⟨h1, h2⟩ := ih _ _ _ _ hacc2 hnd.2 h
        rw [matchedWeights_cons, hm]
        constructor
        · rw [h1, List.append_assoc]
          rfl
        · rw [h2, dsum_cons]
          ring


theorem keys_filterMap_subset {g : Machine → Option (String × ℚ)}
    (hg : ∀ m p, g m = some p → p.1 = m.id) (ms : List Machine) {k : String}
    (h : k ∈ (ms.filterMap g).map (fun p => p.1)) : k ∈ ms.map (fun m => m.id) := by
  obtain ⟨p, hp, hpk⟩ := List.mem_map.mp h
  obtain ⟨m, hm, hgm⟩ := List.mem_filterMap.mp hp
  exact List.mem_map.mpr ⟨m, hm, by rw [← hg m p hgm, hpk]⟩

theorem dget_filterMap_keyed {g : Machine → Option (String × ℚ)}
    (hg : ∀ m p, g m = some p → p.1 = m.id) :
    ∀ {ms : List Machine} {m : Machine}, (ms.map (fun m => m.id)).Nodup → m ∈ ms →
    dget (ms.filterMap g) m.id = (g m).map (fun p => p.2) := by
  intro ms
  induction ms with
  | nil => intro m _ hm; exact absurd hm (List.not_mem_nil m)
  | cons x rest ih =>
    intro m hnd hm
    rw [List.map_cons, List.nodup_cons] at hnd
    rcases List.mem_cons.mp hm with hmx | hmr
    · subst hmx
      cases hx : g m with
      | none =>
        simp only [List.filterMap_cons, hx, Option.map_none']
        rw [dget_eq_none_iff]
        intro hk
        exact hnd.1 (keys_filterMap_subset hg rest hk)
      | some p =>
        simp only [List.filterMap_cons, hx]
        rw [dget_cons, if_pos (hg m p hx)]
        rfl
    · have hne : ¬ x.id = m.id := by
        intro hh
        exact hnd.1 (hh ▸ List.mem_map.mpr ⟨m, hmr, rfl⟩)
      cases hx : g x with
      | none =>
        simp only [List.filterMap_cons, hx]
        exact ih hnd.2 hmr
      | some p =>
        simp only [List.filterMap_cons, hx]
        rw [dget_cons, if_neg (fun hh => hne ((hg x p hx) ▸ hh))]
        exact ih hnd.2 hmr

theorem sum_dgetD_filterMap {g : Machine → Option (String × ℚ)}
    (hg : ∀ m p, g m = some p → p.1 = m.id) :
    ∀ ms : List Machine, (ms.map (fun m => m.id)).Nodup →
    (ms.map (fun m => dgetD (ms.filterMap g) m.id)).sum = dsum (ms.filterMap g) := by
  intro ms
  induction ms with
  | nil => intro _; rfl
  | cons x rest ih =>
    intro hnd
    rw [List.map_cons, List.nodup_cons] at hnd
    have hrest : ∀ m ∈ rest, dgetD ((x :: rest).filterMap g) m.id
        = dgetD (rest.filterMap g) m.id := by
      intro m hm
      have hne : ¬ x.id = m.id := fun hh => hnd.1 (hh ▸ List.mem_map.mpr ⟨m, hm, rfl⟩)
      cases hx : g x with
      | none => simp only [List.filterMap_cons, hx]
      | some p =>
        simp only [List.filterMap_cons, hx]
        unfold dgetD
        rw [dget_cons, if_neg (fun hh => hne ((hg x p hx) ▸ hh))]
    have hxval : dgetD ((x :: rest).filterMap g) x.id
        = (match g x with | some p => p.2 | none => 0) := by
      cases hx : g x with
      | none =>
        simp only [List.filterMap_cons, hx]
        unfold dgetD
        rw [(dget_eq_none_iff _ _).mpr (fun hk => hnd.1 (keys_filterMap_subset hg rest hk))]
        rfl
      | some p =>
        simp only [List.filterMap_cons, hx]
        unfold dgetD
        rw [dget_cons, if_pos (hg x p hx)]
        rfl
    rw [List.map_cons, List.sum_cons, hxval, List.map_congr_left hrest, ih hnd.2]
    cases hx : g x with
    | none => simp only [List.filterMap_cons, hx]; simp
    | some p => simp only [List.filterMap_cons, hx]; rw [dsum_cons]

theorem resolveLoop_sum (fracs : List (String × ℚ)) :
    ∀ ms : List Machine, ((resolveLoop fracs ms).map (fun pr => pr.2)).sum
      = (ms.map (fun m => dgetD fracs m.id)).sum := by
  intro ms
  induction ms with
  | nil => rfl
  | cons m rest ih =>
    simp only [resolveLoop]
    cases hm : dget fracs m.id with
    | none => simp [dgetD, hm, ih]
    | some s =>
      by_cases hs : s = 0
      · simp [dgetD, hm, hs, ih]
      · simp [dgetD, hm, hs, ih]

theorem resolveLoop_mem {fracs : List (String × ℚ)} :
    ∀ {ms : List Machine} {m : Machine} {s : ℚ}, (m, s) ∈ resolveLoop fracs ms →
    m ∈ ms ∧ dget fracs m.id = some s ∧ s ≠ 0 := by
  intro ms
  induction ms with
  | nil => intro m s h; exact absurd h (List.not_mem_nil _)
  | cons x rest ih =>
    intro m s h
    simp only [resolveLoop] at h
    cases hx : dget fracs x.id with
    | none =>
      rw [hx] at h
      obtain ⟨h1, h2, h3⟩ := ih h
      exact ⟨List.mem_cons_of_mem _ h1, h2, h3⟩
    | some v =>
      rw [hx] at h
      by_cases hv : v = 0
      · simp only [hv, ne_eq, not_true_eq_false, if_false] at h
        obtain ⟨h1, h2, h3⟩ := ih h
        exact ⟨List.mem_cons_of_mem _ h1, h2, h3⟩
      · simp only [ne_eq, hv, not_false_eq_true, if_true, List.mem_cons] at h
        rcases h with h | h
        · have hm : m = x := congrArg Prod.fst h
          have hs : s = v := congrArg Prod.snd h
          subst hm
          subst hs
          exact ⟨List.mem_cons_self _ _, hx, hv⟩
        · obtain ⟨h1, h2, h3⟩ := ih h
          exact ⟨List.mem_cons_of_mem _ h1, h2, h3⟩

theorem foldl_dset_fresh (v : ℚ) :
    ∀ (ms : List Machine) (acc : List (String × ℚ)),
    (∀ m ∈ ms, dget acc m.id = none) → (ms.map (fun m => m.id)).Nodup →
    ms.foldl (fun a m => dset a m.id v) acc = acc ++ ms.map (fun m => (m.id, v)) := by
  intro ms
  induction ms with
  | nil => intro acc _ _; simp
  | cons m rest ih =>
    intro acc hacc hnd
    rw [List.map_cons, List.nodup_cons] at hnd
    rw [List.foldl_cons, dset_of_absent (hacc m (List.mem_cons_self _ _))]
    have hacc2 : ∀ m2 ∈ rest, dget (acc ++ [(m.id, v)]) m2.id = none := by
      intro m2 hm2
      have hne : ¬ m.id = m2.id := fun hh =>
        hnd.1 (hh ▸ List.mem_map.mpr ⟨m2, hm2, rfl⟩)
      rw [dget_append_of_none (hacc m2 (List.mem_cons_of_mem _ hm2))]
      simp [dget_cons, dget_nil, hne]
    rw [ih _ hacc2 hnd.2, List.append_assoc]
    rfl

theorem dget_map_const (v : ℚ) :
    ∀ (ms : List Machine) (m : Machine), m ∈ ms →
    dget (ms.map (fun x => (x.id, v))) m.id = some v := by
  intro ms
  induction ms with
  | nil => intro m hm; exact absurd hm (List.not_mem_nil m)
  | cons x rest ih =>
    intro m hm
    rw [List.map_cons, dget_cons]
    by_cases hx : x.id = m.id
    · rw [if_pos hx]
    · rw [if_neg hx]
      rcases List.mem_cons.mp hm with hmx | hmr
      · exact absurd (hmx ▸ rfl) hx
      · exact ih m hmr

theorem dsum_map_const (c : ℚ) (d : List (String × ℚ)) :
    dsum (d.map (fun p => (p.1, c))) = d.length * c := by
  induction d with
  | nil => simp [dsum_nil]
  | cons p rest ih =>
    rw [List.map_cons, dsum_cons, ih, List.length_cons]
    push_cast
    ring

theorem dsum_map_const_machines (c : ℚ) (ms : List Machine) :
    dsum (ms.map (fun m => (m.id, c))) = ms.length * c := by
  induction ms with
  | nil => simp [dsum_nil]
  | cons m rest ih =>
    rw [List.map_cons, dsum_cons, ih, List.length_cons]
    push_cast
    ring

theorem dsum_map_div (t : ℚ) (d : List (String × ℚ)) :
    dsum (d.map (fun p => (p.1, p.2 / t))) = dsum d / t := by
  induction d with
  | nil => simp [dsum_nil]
  | cons p rest ih =>
    rw [List.map_cons, dsum_cons, dsum_cons, ih, add_div]

/-- Elimination for a successful `machines_in_group` lookup: the members are
the plant's machines of that group, in registration order, and nonempty. -/
theorem machines_in_group_ok {p : Plant} {gid : String} {ms : List Machine}
    (h : p.machines_in_group gid = .ok ms) :
    ms = (p.machines.map (fun q => q.2)).filter (fun m => m.group_id == gid) ∧ ms ≠ [] := by
  unfold Plant.machines_in_group at h
  by_cases h1 : (∃ g ∈ p.machine_groups, g.1 = gid) ∨
      (p.machines.map (fun q => q.2)).filter (fun m => m.group_id == gid) ≠ []
  · rw [if_pos h1] at h
    by_cases h2 : (p.machines.map (fun q => q.2)).filter (fun m => m.group_id == gid) = []
    · rw [if_pos h2] at h
      exact absurd h (by simp)
    · rw [if_neg h2] at h
      have := Except.ok.inj h
      exact ⟨this.symm, this ▸ h2⟩
  · rw [if_neg h1] at h
    exact absurd h (by simp)

/-- Under machine-table well-formedness the machines of a group have
pairwise-distinct ids. -/
theorem machines_in_group_ids_nodup {p : Plant} (hwf : p.MachWF) {gid : String}
    {ms : List Machine} (h : p.machines_in_group gid = .ok ms) :
    (ms.map (fun m => m.id)).Nodup := by
  obtain ⟨hms, -⟩ := machines_in_group_ok h
  have hvals : ((p.machines.map (fun q => q.2)).map (fun m => m.id)).Nodup := by
    have : (p.machines.map (fun q => q.2)).map (fun m => m.id)
        = p.machines.map (fun q => q.1) := by
      rw [List.map_map]
      exact List.map_congr_left (fun q hq => hwf.2 q hq)
    rw [this]
    exact hwf.1
  have hsub : List.Sublist (ms.map (fun m => m.id))
      ((p.machines.map (fun q => q.2)).map (fun m => m.id)) := by
    rw [hms]
    exact List.Sublist.map _ (List.filter_sublist _)
  exact hvals.sublist hsub

/-- `_normalize_allocation` with an empty or absent allocation returns the
even split over the whole group. -/
theorem normalize_allocation_even {ms : List Machine} {allocation : Option (List (String × ℚ))}
    (hne : ms ≠ []) (hempty : allocation.getD [] = [])
    (hnd : (ms.map (fun m => m.id)).Nodup) :
    normalize_allocation ms allocation
      = .ok (ms.map (fun m => (m.id, 1 / (ms.length : ℚ)))) := by
  unfold normalize_allocation
  rw [if_neg hne]
  simp only [hempty, if_pos rfl]
  rw [foldl_dset_fresh _ _ _ (fun m _ => dget_nil m.id) hnd]
  rfl

/-- `_normalize_allocation` with a nonempty explicit allocation that returns:
the result is the matched weights normalized by their sum, or the even split
over the matched machines when that sum is zero. -/
theorem normalize_allocation_explicit {ms : List Machine} {a : List (String × ℚ)}
    (hnd : (ms.map (fun m => m.id)).Nodup) (hae : a ≠ [])
    {fracs : List (String × ℚ)}
    (h : normalize_allocation ms (some a) = .ok fracs) :
    matchedWeights a ms ≠ [] ∧
    ((dsum (matchedWeights a ms) = 0 ∧
        fracs = (matchedWeights a ms).map
          (fun p => (p.1, 1 / ((matchedWeights a ms).length : ℚ)))) ∨
     (dsum (matchedWeights a ms) ≠ 0 ∧
        fracs = (matchedWeights a ms).map
          (fun p => (p.1, p.2 / dsum (matchedWeights a ms))))) := by
  unfold normalize_allocation at h
  by_cases hms : ms = []
  · rw [if_pos hms] at h
    exact absurd h (by simp)
  · rw [if_neg hms] at h
    simp only [Option.getD_some] at h
    rw [if_neg hae] at h
    cases hloop : normAllocLoop a ms [] 0 with
    | error e => rw [hloop] at h; exact absurd h (by simp)
    | ok pr =>
      obtain ⟨normalized, total⟩ := pr
      rw [hloop] at h
      dsimp only at h
      obtain ⟨hnorm, htot⟩ :=
        normAllocLoop_ok a ms [] 0 normalized total (fun m _ => dget_nil m.id) hnd hloop
      rw [List.nil_append] at hnorm
      rw [zero_add] at htot
      subst hnorm
      by_cases hempty : matchedWeights a ms = []
      · rw [if_pos hempty] at h
        exact absurd h (by simp)
      · rw [if_neg hempty] at h
        refine ⟨hempty, ?_⟩
        by_cases hz : total = 0
        · rw [if_pos hz] at h
          exact Or.inl ⟨htot ▸ hz, (Except.ok.inj h).symm⟩
        · rw [if_neg hz] at h
          rw [htot] at hz h
          exact Or.inr ⟨hz, (Except.ok.inj h).symm⟩

theorem matchedWeights_map (a : List (String × ℚ)) (f : String × ℚ → ℚ) :
    ∀ ms : List Machine, (matchedWeights a ms).map (fun p => (p.1, f p))
      = ms.filterMap (fun m => (dget a m.id).map (fun v => (m.id, f (m.id, v)))) := by
  intro ms
  induction ms with
  | nil => rfl
  | cons m rest ih =>
    rw [matchedWeights_cons]
    cases hm : dget a m.id with
    | none =>
      simp only [List.filterMap_cons, hm, Option.map_none']
      exact ih
    | some v =>
      simp only [List.filterMap_cons, hm, Option.map_some', List.map_cons]
      rw [ih]

/-! ### Concrete fixtures used by witnesses and counterexamples -/

def machA : Machine := { id := "A", name := "Machine A", group_id := "g" }

def machB : Machine := { id := "B", name := "Machine B", group_id := "g" }

def machC : Machine := { id := "C", name := "Machine C", group_id := "g" }

def groupG : MachineGroup := { id := "g", name := "Group G" }

/-- A plant with the three-machine group `g` and no products. -/
def plantABC : Plant :=
  { resources := [], machine_groups := [("g", groupG)],
    machines := [("A", machA), ("B", machB), ("C", machC)], products := [] }

/-- A plant whose group `g` holds only machine `A`. -/
def plantA : Plant :=
  { resources := [], machine_groups := [("g", groupG)],
    machines := [("A", machA)], products := [] }

def orderW : ProductionOrder :=
  { date := 1, product_id := "p", machine_id := "A", quantity := 10 }

/-! ### C1: allocation fractions sum to 1 -/

/-- C1: for every `group`-target recipe step successfully resolved against a
machine group of a well-formed plant, the fractions in the list returned by
the allocation resolver sum to exactly 1 — hence to 1.0 within the stated
floating-point tolerance of 1e-9 — whether the allocation is absent/empty
(even split), explicit with nonzero weight sum, or explicit with zero weight
sum (fallback). -/
theorem C1_group_fractions_sum_to_one {plant : Plant} (hwf : plant.MachWF)
    {step : RecipeStep} {order : ProductionOrder} {pairs : List (Machine × ℚ)}
    (hg : step.target = "group")
    (h : resolve_step_machines step order plant = .ok pairs) :
    ((pairs.map (fun pr => pr.2)).sum = 1) ∧
    |((pairs.map (fun pr => pr.2)).sum) - 1| ≤ 1 / 1000000000 := by
  suffices hs : (pairs.map (fun pr => pr.2)).sum = 1 by
    rw [hs]
    norm_num
  unfold resolve_step_machines at h
  rw [hg] at h
  rw [if_neg (by decide), if_neg (by decide), if_pos rfl] at h
  by_cases hgid : optTruthy step.group_id = true
  · rw [if_pos hgid] at h
    cases hmg : plant.machines_in_group (step.group_id.getD "") with
    | error e => rw [hmg] at h; exact absurd h (by simp)
    | ok ms =>
      rw [hmg] at h
      dsimp only at h
      cases hna : normalize_allocation ms step.allocation with
      | error e => rw [hna] at h; exact absurd h (by simp)
      | ok fracs =>
        rw [hna] at h
        dsimp only at h
        by_cases hres : resolveLoop fracs ms = []
        · rw [if_pos hres] at h
          exact absurd h (by simp)
        · rw [if_neg hres] at h
          have hpairs : pairs = resolveLoop fracs ms := (Except.ok.inj h).symm
          subst hpairs
          have hnd : (ms.map (fun m => m.id)).Nodup :=
            machines_in_group_ids_nodup hwf hmg
          have hne : ms ≠ [] := by
            intro hms
            rw [hms] at hna
            simp [normalize_allocation] at hna
          have hlen : (ms.length : ℚ) ≠ 0 := by
            exact_mod_cast fun hh => hne (List.length_eq_zero.mp hh)
          rw [resolveLoop_sum]
          -- three allocation modes
          by_cases hempty : step.allocation.getD [] = []
          · -- even split
            rw [normalize_allocation_even hne hempty hnd] at hna
            have hfr := Except.ok.inj hna
            subst hfr
            have hmap : ms.map (fun m => ((m.id : String), 1 / (ms.length : ℚ)))
                = ms.filterMap (fun m => some ((m.id : String), 1 / (ms.length : ℚ))) := by
              rw [← List.filterMap_eq_map (fun m : Machine =>
                ((m.id : String), 1 / (ms.length : ℚ)))]
              rfl
            rw [hmap, sum_dgetD_filterMap (fun m p hp => by
              rw [(Option.some_inj.mp hp).symm]) ms hnd, ← hmap,
              dsum_map_const_machines]
            field_simp
          · -- explicit allocation
            obtain ⟨a, ha⟩ : ∃ a, step.allocation = some a := by
              cases hsa : step.allocation with
              | none => rw [hsa] at hempty; exact absurd rfl hempty
              | some a => exact ⟨a, rfl⟩
            have hae : a ≠ [] := by
              intro haa
              rw [ha, haa] at hempty
              exact hempty rfl
            rw [ha] at hna
            obtain ⟨hmne, hshape⟩ := normalize_allocation_explicit hnd hae hna
            have hmlen : ((matchedWeights a ms).length : ℚ) ≠ 0 := by
              exact_mod_cast fun hh => hmne (List.length_eq_zero.mp hh)
            rcases hshape with ⟨hz, hfr⟩ | ⟨hz, hfr⟩
            · -- zero-sum fallback: even split over matched machines
              subst hfr
              have hcomp : (matchedWeights a ms).map
                  (fun p => (p.1, 1 / ((matchedWeights a ms).length : ℚ)))
                  = ms.filterMap (fun m => (dget a m.id).map
                      (fun v => (m.id, 1 / ((matchedWeights a ms).length : ℚ)))) :=
                matchedWeights_map a (fun _ => 1 / ((matchedWeights a ms).length : ℚ)) ms
              rw [hcomp, sum_dgetD_filterMap (fun m p hp => by
                  cases hduv : dget a m.id with
                  | none => rw [hduv] at hp; exact absurd hp (by simp)
                  | some v =>
                    rw [hduv] at hp
                    simp only [Option.map_some', Option.some_inj] at hp
                    rw [← hp]) ms hnd, ← hcomp,
                dsum_map_const (1 / ((matchedWeights a ms).length : ℚ))]
              field_simp
            · -- normalized by the (nonzero) total
              subst hfr
              have hcomp : (matchedWeights a ms).map
                  (fun p => (p.1, p.2 / dsum (matchedWeights a ms)))
                  = ms.filterMap (fun m => (dget a m.id).map
                      (fun v => (m.id, v / dsum (matchedWeights a ms)))) :=
                matchedWeights_map a (fun p => p.2 / dsum (matchedWeights a ms)) ms
              rw [hcomp, sum_dgetD_filterMap (fun m p hp => by
                  cases hduv : dget a m.id with
                  | none => rw [hduv] at hp; exact absurd hp (by simp)
                  | some v =>
                    rw [hduv] at hp
                    simp only [Option.map_some', Option.some_inj] at hp
                    rw [← hp]) ms hnd, ← hcomp, dsum_map_div]
              exact div_self hz
  · rw [if_neg hgid] at h
    exact absurd h (by simp)

/-- A `group`-target step with the partial explicit allocation {A: 2, B: 2}. -/
def stepW : RecipeStep :=
  { name := "s", target := "group", machine_id := none, group_id := some "g",
    required_group := none, allocation := some [("A", 2), ("B", 2)],
    capacity_usage := [], resource_changes := [] }

/-- C1 witness: the resolver applied to a group step with a partial explicit
allocation on the three-machine group. -/
theorem C1_group_fractions_sum_to_one_witness :
    plantABC.MachWF ∧ stepW.target = "group" ∧
    resolve_step_machines stepW orderW plantABC
      = .ok [(machA, (1 : ℚ)/2), (machB, (1 : ℚ)/2)] ∧
    ((([(machA, (1 : ℚ)/2), (machB, (1 : ℚ)/2)]).map (fun pr => pr.2)).sum = 1 ∧
      |((([(machA, (1 : ℚ)/2), (machB, (1 : ℚ)/2)]).map (fun pr => pr.2)).sum) - 1|
        ≤ 1 / 1000000000) := by
  have hres : resolve_step_machines stepW orderW plantABC
      = .ok [(machA, (1 : ℚ)/2), (machB, (1 : ℚ)/2)] := by
    simp +decide [resolve_step_machines, stepW, orderW, plantABC, optTruthy,
      Plant.machines_in_group, machA, machB, machC, groupG, normalize_allocation,
      normAllocLoop, dget, dset, resolveLoop]
    norm_num
  exact ⟨by decide, rfl, hres, C1_group_fractions_sum_to_one (by decide) rfl hres⟩

/-! ### C6: even split -/

/-- C6: a `group`-target allocation normalization with the allocation map
absent or empty, against a nonempty group of machines with distinct ids,
gives every machine of the group fraction exactly `1/N`, `N` the group
size. -/
theorem C6_even_split {ms : List Machine} {allocation : Option (List (String × ℚ))}
    {fracs : List (String × ℚ)}
    (hnd : (ms.map (fun m => m.id)).Nodup)
    (hempty : allocation = none ∨ allocation = some [])
    (h : normalize_allocation ms allocation = .ok fracs) :
    ∀ m ∈ ms, dget fracs m.id = some (1 / (ms.length : ℚ)) := by
  have hne : ms ≠ [] := by
    intro hms
    rw [hms] at h
    simp [normalize_allocation] at h
  have hget : allocation.getD [] = [] := by
    rcases hempty with h1 | h1 <;> rw [h1] <;> rfl
  rw [normalize_allocation_even hne hget hnd] at h
  have hfr := Except.ok.inj h
  intro m hm
  rw [← hfr]
  exact dget_map_const _ ms m hm

/-- C6 witness: a group of three machines with no explicit allocation yields
fraction 1/3 for each machine (instantiated at machine B). -/
theorem C6_even_split_witness :
    (([machA, machB, machC].map (fun m => m.id)).Nodup) ∧
    normalize_allocation [machA, machB, machC] none
      = .ok [("A", (1 : ℚ)/3), ("B", (1 : ℚ)/3), ("C", (1 : ℚ)/3)] ∧
    machB ∈ [machA, machB, machC] ∧
    dget [("A", (1 : ℚ)/3), ("B", (1 : ℚ)/3), ("C", (1 : ℚ)/3)] machB.id
      = some (1 / (([machA, machB, machC] : List Machine).length : ℚ)) := by
  have hres : normalize_allocation [machA, machB, machC] none
      = .ok [("A", (1 : ℚ)/3), ("B", (1 : ℚ)/3), ("C", (1 : ℚ)/3)] := by
    simp +decide [normalize_allocation, machA, machB, machC, dset] <;> norm_num
  exact ⟨by decide, hres, by decide,
    C6_even_split (by decide) (Or.inl rfl) hres machB (by decide)⟩

/-! ### C5: explicit allocation semantics -/

/-- C5: with a nonempty explicit allocation map, each matched machine's
fraction is its weight divided by the matched total — or `1/M` with `M` the
number of matched machines when that total is exactly 0 — and machines of
the group without an allocation entry are excluded both from the fraction
dict and from the resolver's result list. -/
theorem C5_partial_explicit_allocation {ms : List Machine} {a : List (String × ℚ)}
    {fracs : List (String × ℚ)}
    (hnd : (ms.map (fun m => m.id)).Nodup) (hae : a ≠ [])
    (h : normalize_allocation ms (some a) = .ok fracs) :
    (dsum (matchedWeights a ms) ≠ 0 →
      ∀ m ∈ ms, ∀ v, dget a m.id = some v →
        dget fracs m.id = some (v / dsum (matchedWeights a ms))) ∧
    (dsum (matchedWeights a ms) = 0 →
      ∀ m ∈ ms, ∀ v, dget a m.id = some v →
        dget fracs m.id = some (1 / ((matchedWeights a ms).length : ℚ))) ∧
    (∀ m ∈ ms, dget a m.id = none → dget fracs m.id = none) ∧
    (∀ m ∈ ms, dget a m.id = none → ∀ s : ℚ, (m, s) ∉ resolveLoop fracs ms) := by
  obtain ⟨hmne, hshape⟩ := normalize_allocation_explicit hnd hae h
  have key : ∀ (f : String × ℚ → ℚ), ∀ m ∈ ms,
      dget ((matchedWeights a ms).map (fun p => (p.1, f p))) m.id
        = (dget a m.id).map (fun v => f (m.id, v)) := by
    intro f m hm
    have hcomp : (matchedWeights a ms).map (fun p => (p.1, f p))
        = ms.filterMap (fun m => (dget a m.id).map (fun v => (m.id, f (m.id, v)))) :=
      matchedWeights_map a f ms
    rw [hcomp]
    rw [dget_filterMap_keyed (fun m2 p hp => by
        cases hduv : dget a m2.id with
        | none => rw [hduv] at hp; exact absurd hp (by simp)
        | some v =>
          rw [hduv] at hp
          simp only [Option.map_some', Option.some_inj] at hp
          rw [← hp]) hnd hm]
    cases dget a m.id <;> rfl
  have hexcl : ∀ m ∈ ms, dget a m.id = none → dget fracs m.id = none := by
    intro m hm hnone
    rcases hshape with ⟨_, hfr⟩ | ⟨_, hfr⟩ <;> subst hfr <;>
      rw [key _ m hm, hnone] <;> rfl
  refine ⟨?_, ?_, hexcl, ?_⟩
  · intro hT m hm v hv
    rcases hshape with ⟨hz, hfr⟩ | ⟨hz, hfr⟩
    · exact absurd hz hT
    · subst hfr
      rw [key (fun p => p.2 / dsum (matchedWeights a ms)) m hm, hv]
      rfl
  · intro hT m hm v hv
    rcases hshape with ⟨hz, hfr⟩ | ⟨hz, hfr⟩
    · subst hfr
      rw [key (fun p => 1 / ((matchedWeights a ms).length : ℚ)) m hm, hv]
      rfl
    · exact absurd hT hz
  · intro m hm hnone s hmem
    obtain ⟨-, h2, -⟩ := resolveLoop_mem hmem
    rw [hexcl m hm hnone] at h2
    exact Option.noConfusion h2

/-- C5 witness: group {A,B,C} with allocation {A: 2, B: 2} gives A the
fraction 2/4 = 1/2 and excludes C; allocation {A: 0, B: 0} gives A the
zero-sum fallback fraction 1/2 (two matched machines). -/
theorem C5_partial_explicit_allocation_witness :
    normalize_allocation [machA, machB, machC] (some [("A", 2), ("B", 2)])
      = .ok [("A", (1 : ℚ)/2), ("B", (1 : ℚ)/2)] ∧
    dsum (matchedWeights [("A", 2), ("B", 2)] [machA, machB, machC]) = 4 ∧
    dget [("A", (1 : ℚ)/2), ("B", (1 : ℚ)/2)] machA.id
      = some ((2 : ℚ) / dsum (matchedWeights [("A", 2), ("B", 2)] [machA, machB, machC])) ∧
    dget [("A", (1 : ℚ)/2), ("B", (1 : ℚ)/2)] machC.id = none ∧
    normalize_allocation [machA, machB, machC] (some [("A", 0), ("B", 0)])
      = .ok [("A", (1 : ℚ)/2), ("B", (1 : ℚ)/2)] ∧
    dget [("A", (1 : ℚ)/2), ("B", (1 : ℚ)/2)] machA.id
      = some (1 / ((matchedWeights [("A", 0), ("B", 0)] [machA, machB, machC]).length : ℚ)) := by
  have hres1 : normalize_allocation [machA, machB, machC] (some [("A", 2), ("B", 2)])
      = .ok [("A", (1 : ℚ)/2), ("B", (1 : ℚ)/2)] := by
    simp +decide [normalize_allocation, normAllocLoop, machA, machB, machC, dget, dset] <;>
      norm_num
  have hres2 : normalize_allocation [machA, machB, machC] (some [("A", 0), ("B", 0)])
      = .ok [("A", (1 : ℚ)/2), ("B", (1 : ℚ)/2)] := by
    simp +decide [normalize_allocation, normAllocLoop, machA, machB, machC, dget, dset] <;>
      norm_num
  have hsum : dsum (matchedWeights [("A", 2), ("B", 2)] [machA, machB, machC]) = 4 := by
    simp +decide [dsum, matchedWeights, dget, machA, machB, machC] <;> norm_num
  have h1 := C5_partial_explicit_allocation (by decide) (by simp) hres1
  have h2 := C5_partial_explicit_allocation (by decide) (by simp) hres2
  refine ⟨hres1, hsum, ?_, ?_, hres2, ?_⟩
  · exact h1.1 (by rw [hsum]; norm_num) machA (by decide) 2
      (by simp +decide [dget, machA] <;> norm_num)
  · exact h1.2.2.1 machC (by decide) (by simp +decide [dget, machC])
  · refine h2.2.1 ?_ machA (by decide) 0 (by simp +decide [dget, machA] <;> norm_num)
    simp +decide [dsum, matchedWeights, dget, machA, machB, machC] <;> norm_num

/-! ### C8: negative allocation weights -/

/-- A plant whose group `g` holds machines `A` and `B`. -/
def plantAB : Plant :=
  { resources := [], machine_groups := [("g", groupG)],
    machines := [("A", machA), ("B", machB)], products := [] }

/-- A `group` step whose allocation gives weight 1 to `A` and -1 to the key
`X`, which matches no machine of `plantA`'s single-machine group. -/
def stepNegX : RecipeStep :=
  { name := "s", target := "group", machine_id := none, group_id := some "g",
    required_group := none, allocation := some [("A", 1), ("X", -1)],
    capacity_usage := [], resource_changes := [] }

/-- A `group` step whose allocation gives weight 1 to `A` and -1 to `B`. -/
def stepNegB : RecipeStep :=
  { name := "s", target := "group", machine_id := none, group_id := some "g",
    required_group := none, allocation := some [("A", 1), ("B", -1)],
    capacity_usage := [], resource_changes := [] }

/-- C8 counterexample: the step's allocation map contains a negative weight
(for key `X`), yet resolving the step against the group {A} succeeds with
[(A, 1)] instead of failing with `NegativeAllocation`: the loop only checks
the weights of machines that are actually in the group. -/
theorem C8_counterexample :
    stepNegX.allocation = some [("A", 1), ("X", -1)] ∧
    (∃ w ∈ [(("A" : String), (1 : ℚ)), ("X", -1)], w.2 < 0) ∧
    stepNegX.target = "group" ∧
    resolve_step_machines stepNegX orderW plantA = .ok [(machA, 1)] := by
  refine ⟨rfl, ⟨("X", -1), by simp, by norm_num⟩, rfl, ?_⟩
  simp +decide [resolve_step_machines, stepNegX, orderW, plantA, optTruthy,
    Plant.machines_in_group, machA, groupG, normalize_allocation,
    normAllocLoop, dget, dset, resolveLoop] <;> norm_num

/-- Helper for the amended C8: the machine loop of `_normalize_allocation`
fails with `NegativeAllocation` as soon as some machine of the group has a
negative explicit weight. -/
theorem normAllocLoop_neg {alloc : List (String × ℚ)} :
    ∀ (ms : List Machine) (acc : List (String × ℚ)) (t : ℚ),
    (∃ m ∈ ms, ∃ v, dget alloc m.id = some v ∧ v < 0) →
    ∃ mid, normAllocLoop alloc ms acc t = .error (.negAllocation mid) := by
  intro ms
  induction ms with
  | nil =>
    intro acc t h
    obtain ⟨m, hm, -⟩ := h
    exact absurd hm (List.not_mem_nil m)
  | cons m rest ih =>
    intro acc t h
    cases hm : dget alloc m.id with
    | none =>
      simp only [normAllocLoop, hm]
      apply ih
      obtain ⟨m2, hm2, v, hv, hvneg⟩ := h
      rcases List.mem_cons.mp hm2 with he | hr
      · rw [he, hm] at hv
        exact absurd hv (by simp)
      · exact ⟨m2, hr, v, hv, hvneg⟩
    | some v =>
      simp only [normAllocLoop, hm]
      by_cases hneg : v < 0
      · exact ⟨m.id, by rw [if_pos hneg]⟩
      · rw [if_neg hneg]
        apply ih
        obtain ⟨m2, hm2, v2, hv2, hv2neg⟩ := h
        rcases List.mem_cons.mp hm2 with he | hr
        · rw [he, hm] at hv2
          have hvv := Option.some_inj.mp hv2
          exact absurd hv2neg (hvv ▸ hneg)
        · exact ⟨m2, hr, v2, hv2, hv2neg⟩

/-- C8 amended: if the explicit allocation map carries a negative weight for
some machine that is in the step's group, resolving the step fails with the
`NegativeAllocation` error (a negative weight whose key matches no machine of
the group is ignored, as the counterexample shows). -/
theorem C8_amended_negative_weight_in_group {plant : Plant} {step : RecipeStep}
    {order : ProductionOrder} {ms : List Machine} {a : List (String × ℚ)}
    (hg : step.target = "group") (hgid : optTruthy step.group_id = true)
    (hmg : plant.machines_in_group (step.group_id.getD "") = .ok ms)
    (ha : step.allocation = some a)
    (hneg : ∃ m ∈ ms, ∃ v, dget a m.id = some v ∧ v < 0) :
    ∃ mid, resolve_step_machines step order plant = .error (.negAllocation mid) := by
  have hms_ne : ms ≠ [] := (machines_in_group_ok hmg).2
  have hae : a ≠ [] := by
    obtain ⟨m, hm, v, hv, -⟩ := hneg
    intro haa
    rw [haa] at hv
    exact absurd hv (by rw [dget_nil]; simp)
  obtain ⟨mid, hloop⟩ := normAllocLoop_neg ms [] 0 hneg
  have hna : normalize_allocation ms (some a) = .error (.negAllocation mid) := by
    unfold normalize_allocation
    rw [if_neg hms_ne]
    simp only [Option.getD_some]
    rw [if_neg hae, hloop]
  refine ⟨mid, ?_⟩
  unfold resolve_step_machines
  rw [hg]
  rw [if_neg (by decide), if_neg (by decide), if_pos rfl, if_pos hgid, hmg]
  dsimp only
  rw [ha, hna]

/-- C8 amended witness: group {A, B} with allocation {A: 1, B: -1} fails with
`NegativeAllocation`. -/
theorem C8_amended_negative_weight_in_group_witness :
    stepNegB.target = "group" ∧ optTruthy stepNegB.group_id = true ∧
    plantAB.machines_in_group "g" = .ok [machA, machB] ∧
    stepNegB.allocation = some [("A", 1), ("B", -1)] ∧
    (∃ m ∈ [machA, machB], ∃ v : ℚ, dget [(("A" : String), (1 : ℚ)), ("B", -1)] m.id = some v
      ∧ v < 0) ∧
    (∃ mid, resolve_step_machines stepNegB orderW plantAB
      = .error (.negAllocation mid)) := by
  have hmg : plantAB.machines_in_group "g" = .ok [machA, machB] := by
    simp +decide [Plant.machines_in_group, plantAB, machA, machB, groupG]
  have hneg : ∃ m ∈ [machA, machB], ∃ v : ℚ,
      dget [(("A" : String), (1 : ℚ)), ("B", -1)] m.id = some v ∧ v < 0 := by
    refine ⟨machB, by simp, -1, ?_, by norm_num⟩
    simp +decide [dget, machB]
  exact ⟨rfl, by decide, hmg, rfl, hneg,
    C8_amended_negative_weight_in_group rfl (by decide) hmg rfl hneg⟩

/-! ### C7: capacity alerts -/

/-- The per-entry decision of `capacity_alerts`: the alert emitted for one
entry of `capacity_used`, if any. -/
def alertOpt (u : MachineUsage) (p : String × ℚ) : Option Alert :=
  match dget u.machine.capacity p.1 with
  | none => none
  | some c =>
    if c ≠ 0 ∧ c < p.2 then some ⟨u.machine.id, u.machine.name, p.1, p.2, c⟩
    else none

theorem foldl_append_optList {β γ : Type} (f : β → Option γ) :
    ∀ (l : List β) (init : List γ),
    l.foldl (fun acc x => acc ++ (f x).toList) init = init ++ l.filterMap f := by
  intro l
  induction l with
  | nil => intro init; simp
  | cons x rest ih =>
    intro init
    rw [List.foldl_cons, ih (init ++ (f x).toList), List.filterMap_cons]
    cases hx : f x with
    | none => simp
    | some y => simp

theorem machineAlerts_eq (u : MachineUsage) :
    machineAlerts u = u.capacity_used.filterMap (alertOpt u) := by
  unfold machineAlerts
  have hb : ∀ (acc : List Alert) (p : String × ℚ),
      (match dget u.machine.capacity p.1 with
       | none => acc
       | some c =>
         if c ≠ 0 ∧ c < p.2 then
           acc ++ [⟨u.machine.id, u.machine.name, p.1, p.2, c⟩]
         else acc)
      = acc ++ (alertOpt u p).toList := by
    intro acc p
    unfold alertOpt
    cases dget u.machine.capacity p.1 with
    | none => simp
    | some c =>
      dsimp only
      by_cases hcc : c ≠ 0 ∧ c < p.2
      · rw [if_pos hcc, if_pos hcc]
        rfl
      · rw [if_neg hcc, if_neg hcc]
        simp
  calc u.capacity_used.foldl (fun acc p =>
        match dget u.machine.capacity p.1 with
        | none => acc
        | some c =>
          if c ≠ 0 ∧ c < p.2 then
            acc ++ [⟨u.machine.id, u.machine.name, p.1, p.2, c⟩]
          else acc) []
      = u.capacity_used.foldl (fun acc p => acc ++ (alertOpt u p).toList) [] := by
        apply List.foldl_ext
        intro acc p _
        exact hb acc p
    _ = [] ++ u.capacity_used.filterMap (alertOpt u) :=
        foldl_append_optList (alertOpt u) u.capacity_used []
    _ = u.capacity_used.filterMap (alertOpt u) := by simp

theorem foldl_append_flatten {β γ : Type} (h : β → List γ) :
    ∀ (l : List β) (init : List γ),
    l.foldl (fun acc x => acc ++ h x) init = init ++ (l.map h).flatten := by
  intro l
  induction l with
  | nil => intro init; simp
  | cons x rest ih =>
    intro init
    rw [List.foldl_cons, ih (init ++ h x), List.map_cons, List.flatten_cons,
      List.append_assoc]

theorem capacity_alerts_eq (ds : DaySummary) :
    ds.capacity_alerts
      = (ds.machine_usage.map (fun q => machineAlerts q.2)).flatten := by
  unfold DaySummary.capacity_alerts
  rw [foldl_append_flatten (fun q => machineAlerts q.2) ds.machine_usage []]
  rfl

theorem countP_flatten {γ : Type} (pred : γ → Bool) :
    ∀ l : List (List γ),
    l.flatten.countP pred = (l.map (fun x => x.countP pred)).sum := by
  intro l
  induction l with
  | nil => rfl
  | cons x rest ih =>
    rw [List.flatten_cons, List.countP_append, List.map_cons, List.sum_cons, ih]

theorem countP_filterMap {β γ : Type} (f : β → Option γ) (pred : γ → Bool) :
    ∀ l : List β, (l.filterMap f).countP pred
      = l.countP (fun x => ((f x).map pred).getD false) := by
  intro l
  induction l with
  | nil => rfl
  | cons x rest ih =>
    rw [List.filterMap_cons]
    cases hx : f x with
    | none =>
      rw [List.countP_cons, ih, hx]
      simp
    | some y =>
      rw [List.countP_cons, List.countP_cons, ih, hx]
      simp

theorem mem_machineAlerts {u : MachineUsage} {al : Alert} (h : al ∈ machineAlerts u) :
    ∃ p ∈ u.capacity_used, ∃ c, dget u.machine.capacity p.1 = some c ∧ c ≠ 0 ∧ c < p.2 ∧
      al = ⟨u.machine.id, u.machine.name, p.1, p.2, c⟩ := by
  rw [machineAlerts_eq] at h
  obtain ⟨p, hp, hopt⟩ := List.mem_filterMap.mp h
  refine ⟨p, hp, ?_⟩
  unfold alertOpt at hopt
  cases hc : dget u.machine.capacity p.1 with
  | none =>
    simp only [hc] at hopt
    exact absurd hopt (by simp)
  | some c =>
    simp only [hc] at hopt
    by_cases hcc : c ≠ 0 ∧ c < p.2
    · rw [if_pos hcc] at hopt
      exact ⟨c, rfl, hcc.1, hcc.2, (Option.some_inj.mp hopt).symm⟩
    · rw [if_neg hcc] at hopt
      exact absurd hopt (by simp)

/-- A keyed binding in a dict with distinct keys is what `dget` returns. -/
theorem mem_keyed_dget {α : Type} :
    ∀ {l : List (String × α)}, (l.map (fun p => p.1)).Nodup →
    ∀ {k : String} {v : α}, (k, v) ∈ l → dget l k = some v := by
  intro l
  induction l with
  | nil => intro _ k v hm; exact absurd hm (List.not_mem_nil _)
  | cons p rest ih =>
    intro hnd k v hm
    rw [List.map_cons, List.nodup_cons] at hnd
    rcases List.mem_cons.mp hm with he | hr
    · rw [← he]
      rw [dget_cons, if_pos rfl]
    · have hne : ¬ p.1 = k := by
        intro hh
        exact hnd.1 (hh ▸ List.mem_map.mpr ⟨(k, v), hr, hh ▸ rfl⟩)
      rw [dget_cons, if_neg hne]
      exact ih hnd.2 hr

/-- countP of a key-targeted predicate over a dict with distinct keys. -/
theorem countP_keyed_unique {α : Type} (k : String) (q : String × α → Bool) :
    ∀ {l : List (String × α)}, (l.map (fun p => p.1)).Nodup →
    (∀ p : String × α, q p = true → p.1 = k) →
    l.countP q = ((dget l k).map (fun v => if q (k, v) then 1 else 0)).getD 0 := by
  intro l
  induction l with
  | nil => intro _ _; rfl
  | cons p rest ih =>
    intro hnd hq
    rw [List.map_cons, List.nodup_cons] at hnd
    rw [List.countP_cons, ih hnd.2 hq]
    by_cases hpk : p.1 = k
    · rw [dget_cons, if_pos hpk]
      have hrest : dget rest k = none := by
        rw [dget_eq_none_iff]
        exact hpk ▸ hnd.1
      rw [hrest]
      have hp : (k, p.2) = p := by
        obtain ⟨a, b⟩ := p
        simp only at hpk
        rw [hpk]
      simp only [Option.map_none', Option.getD_none, Option.map_some', Option.getD_some, hp]
      simp
    · rw [dget_cons, if_neg hpk]
      have hqp : q p = false := by
        cases hqb : q p
        · rfl
        · exact absurd (hq p hqb) hpk
      rw [hqp]
      simp

theorem sum_single_key {mid : String} {u : MachineUsage} (f : MachineUsage → Nat) :
    ∀ {l : List (String × MachineUsage)}, (l.map (fun q => q.1)).Nodup →
    (∀ q ∈ l, q.2.machine.id = q.1) →
    dget l mid = some u →
    (l.map (fun q => if q.2.machine.id = mid then f q.2 else 0)).sum = f u := by
  intro l
  induction l with
  | nil => intro _ _ hg; exact absurd hg (by rw [dget_nil]; simp)
  | cons p rest ih =>
    intro hnd hid hg
    rw [List.map_cons, List.nodup_cons] at hnd
    rw [dget_cons] at hg
    rw [List.map_cons, List.sum_cons]
    by_cases hpk : p.1 = mid
    · rw [if_pos hpk] at hg
      have hu := Option.some_inj.mp hg
      rw [if_pos (by rw [hid p (List.mem_cons_self _ _), hpk]), hu]
      have hzero : ∀ q ∈ rest, (if q.2.machine.id = mid then f q.2 else 0) = 0 := by
        intro q hq
        rw [if_neg]
        rw [hid q (List.mem_cons_of_mem _ hq)]
        intro hh
        exact hnd.1 (hpk ▸ hh ▸ List.mem_map.mpr ⟨q, hq, rfl⟩)
      rw [List.map_congr_left hzero]
      simp
    · rw [if_neg hpk] at hg
      rw [if_neg (by rw [hid p (List.mem_cons_self _ _)]; exact hpk)]
      rw [ih hnd.2 (fun q hq => hid q (List.mem_cons_of_mem _ hq)) hg]
      simp

theorem countP_mid_zero {mid k : String} {u : MachineUsage}
    (hne : u.machine.id ≠ mid) :
    (machineAlerts u).countP
      (fun al => al.machine_id == mid && al.capacity_key == k) = 0 := by
  rw [List.countP_eq_zero]
  intro al hal
  obtain ⟨p, -, c, -, -, -, hval⟩ := mem_machineAlerts hal
  subst hval
  simp only [Bool.and_eq_true, beq_iff_eq]
  intro hh
  exact hne hh.1

/-- C7: `capacity_alerts` on a day summary (with the structural invariants
`simulate` maintains: unique machine keys matching each usage\'s machine id,
unique capacity keys, and nonnegative declared limits) emits exactly one
alert per (machine, capacity key) pair whose declared limit is non-null,
non-zero and strictly below the accumulated usage — usage equal to the limit
or an undeclared/zero limit never alerts — and each alert carries the
machine\'s id and name, the used amount, and the limit. -/
theorem C7_capacity_alert_threshold (ds : DaySummary)
    (hnd : (ds.machine_usage.map (fun q => q.1)).Nodup)
    (hid : ∀ q ∈ ds.machine_usage, q.2.machine.id = q.1)
    (hkeys : ∀ q ∈ ds.machine_usage, (q.2.capacity_used.map (fun p => p.1)).Nodup)
    (hcap : ∀ q ∈ ds.machine_usage, ∀ e ∈ q.2.machine.capacity, 0 ≤ e.2)
    (mid k : String) :
    (∀ u, dget ds.machine_usage mid = some u →
      (ds.capacity_alerts.countP
          (fun al => al.machine_id == mid && al.capacity_key == k)
        = if ∃ c, dget u.machine.capacity k = some c ∧ c ≠ 0
              ∧ c < dgetD u.capacity_used k then 1 else 0) ∧
      (∀ al ∈ ds.capacity_alerts, al.machine_id = mid → al.capacity_key = k →
        al.machine_name = u.machine.name ∧ al.used = dgetD u.capacity_used k ∧
        dget u.machine.capacity k = some al.limit)) ∧
    (dget ds.machine_usage mid = none →
      ds.capacity_alerts.countP
        (fun al => al.machine_id == mid && al.capacity_key == k) = 0) := by
  have hcount : ds.capacity_alerts.countP
      (fun al => al.machine_id == mid && al.capacity_key == k)
      = (ds.machine_usage.map (fun q =>
          (machineAlerts q.2).countP
            (fun al => al.machine_id == mid && al.capacity_key == k))).sum := by
    rw [capacity_alerts_eq, countP_flatten, List.map_map]
    rfl
  have hsplit : ∀ q : String × MachineUsage,
      (machineAlerts q.2).countP (fun al => al.machine_id == mid && al.capacity_key == k)
      = if q.2.machine.id = mid then
          (machineAlerts q.2).countP
            (fun al => al.machine_id == mid && al.capacity_key == k)
        else 0 := by
    intro q
    by_cases hq : q.2.machine.id = mid
    · rw [if_pos hq]
    · rw [if_neg hq, countP_mid_zero hq]
  constructor
  · intro u hu
    constructor
    · -- the count
      rw [hcount, List.map_congr_left (fun q _ => hsplit q),
        sum_single_key (fun u => (machineAlerts u).countP
          (fun al => al.machine_id == mid && al.capacity_key == k)) hnd hid hu]
      have humid : u.machine.id = mid := hid (mid, u) (dget_mem hu)
      have hukeys : (u.capacity_used.map (fun p => p.1)).Nodup :=
        hkeys (mid, u) (dget_mem hu)
      rw [machineAlerts_eq, countP_filterMap]
      have hpred : ∀ p : String × ℚ,
          (((alertOpt u p).map
            (fun al => al.machine_id == mid && al.capacity_key == k)).getD false)
          = ((p.1 == k) && decide (∃ c, dget u.machine.capacity p.1 = some c ∧ c ≠ 0
              ∧ c < p.2)) := by
        intro p
        unfold alertOpt
        cases hc : dget u.machine.capacity p.1 with
        | none =>
          have hex : ¬ ∃ c, (none : Option ℚ) = some c ∧ c ≠ 0 ∧ c < p.2 := by
            rintro ⟨c, hcc, -⟩
            exact Option.noConfusion hcc
          simp [hex]
        | some c =>
          dsimp only
          by_cases hcc : c ≠ 0 ∧ c < p.2
          · rw [if_pos hcc]
            have hex : ∃ c2, (some c : Option ℚ) = some c2 ∧ c2 ≠ 0 ∧ c2 < p.2 :=
              ⟨c, rfl, hcc.1, hcc.2⟩
            simp [humid, hex]
            exact fun _ => hcc
          · rw [if_neg hcc]
            have hex : ¬ ∃ c2, (some c : Option ℚ) = some c2 ∧ c2 ≠ 0 ∧ c2 < p.2 := by
              rintro ⟨c2, hc2, h1, h2⟩
              exact hcc ⟨(Option.some_inj.mp hc2) ▸ h1, (Option.some_inj.mp hc2) ▸ h2⟩
            simp [hex]
            intro hpk1 hc0
            rcases not_and_or.mp hcc with h1 | h1
            · exact absurd (not_not.mp h1) hc0
            · exact not_lt.mp h1
      rw [List.countP_congr (fun p _ => by rw [hpred p])]
      rw [countP_keyed_unique k
        (fun p => (p.1 == k) && decide (∃ c, dget u.machine.capacity p.1 = some c ∧ c ≠ 0
          ∧ c < p.2))
        hukeys (fun p hp => by
          simp only [Bool.and_eq_true, beq_iff_eq] at hp
          exact hp.1)]
      cases hused : dget u.capacity_used k with
      | some used =>
        have hD : dgetD u.capacity_used k = used := by rw [dgetD, hused]; rfl
        rw [hD]
        simp only [Option.map_some', Option.getD_some, beq_self_eq_true, Bool.true_and]
        by_cases hex : ∃ c, dget u.machine.capacity k = some c ∧ c ≠ 0 ∧ c < used
        · rw [if_pos hex]
          simp [hex]
        · rw [if_neg hex]
          simp [hex]
      | none =>
        have hD : dgetD u.capacity_used k = 0 := by rw [dgetD, hused]; rfl
        rw [hD]
        have hex : ¬ ∃ c, dget u.machine.capacity k = some c ∧ c ≠ 0 ∧ c < 0 := by
          rintro ⟨c, hc, -, hcneg⟩
          have := hcap (mid, u) (dget_mem hu) (k, c) (dget_mem hc)
          exact absurd hcneg (not_lt.mpr this)
        rw [if_neg hex]
        simp
    · -- alert record contents
      intro al hal hmid hkey
      rw [capacity_alerts_eq] at hal
      obtain ⟨ll, hll, hmem⟩ := List.mem_flatten.mp hal
      obtain ⟨q, hq, hqeq⟩ := List.mem_map.mp hll
      rw [← hqeq] at hmem
      obtain ⟨p, hp, c, hc, -, -, hval⟩ := mem_machineAlerts hmem
      have hqmid : q.1 = mid := by
        rw [← hid q hq, ← hmid, hval]
      have hqu : q.2 = u := by
        have h1 : dget ds.machine_usage q.1 = some q.2 := by
          apply mem_keyed_dget hnd
          obtain ⟨q1, q2⟩ := q
          exact hq
        rw [hqmid, hu] at h1
        exact (Option.some_inj.mp h1).symm
      have hpk : p.1 = k := by rw [← hkey, hval]
      subst hval
      refine ⟨by rw [hqu], ?_, ?_⟩
      · have hpget : dget u.capacity_used k = some p.2 := by
          apply mem_keyed_dget (hkeys (mid, u) (dget_mem hu))
          rw [← hpk, ← hqu]
          obtain ⟨p1, p2⟩ := p
          exact hp
        rw [dgetD, hpget]
        rfl
      · rw [← hpk, ← hqu]
        exact hc
  · intro hu
    rw [hcount, List.map_congr_left (fun q _ => hsplit q)]
    have hall : ∀ q ∈ ds.machine_usage,
        (if q.2.machine.id = mid then
          (machineAlerts q.2).countP
            (fun al => al.machine_id == mid && al.capacity_key == k)
         else 0) = 0 := by
      intro q hq
      rw [if_neg]
      intro hh
      rw [hid q hq] at hh
      rw [dget_eq_none_iff] at hu
      exact hu (hh ▸ List.mem_map.mpr ⟨q, hq, rfl⟩)
    rw [List.map_congr_left hall]
    simp

/-- A machine with capacity limit {ton: 100}. -/
def machD : Machine :=
  { id := "D", name := "Machine D", group_id := "g", capacity := [("ton", 100)] }

/-- Usage strictly above the limit (100.0001 tons). -/
def usageOver : MachineUsage :=
  { machine := machD, capacity_used := [("ton", 1000001/10000)], resource_balance := [] }

/-- Usage exactly at the limit (100 tons). -/
def usageAt : MachineUsage :=
  { machine := machD, capacity_used := [("ton", 100)], resource_balance := [] }

def dsOver : DaySummary :=
  { date := 1, product_quantities := [], machine_usage := [("D", usageOver)],
    resource_balance := [] }

def dsAt : DaySummary :=
  { date := 1, product_quantities := [], machine_usage := [("D", usageAt)],
    resource_balance := [] }

/-- C7 witness: usage 100.0001 against limit 100 gives exactly one alert for
(D, ton); usage exactly 100 gives none. -/
theorem C7_capacity_alert_threshold_witness :
    dget dsOver.machine_usage "D" = some usageOver ∧
    dget dsAt.machine_usage "D" = some usageAt ∧
    dsOver.capacity_alerts.countP
      (fun al => al.machine_id == "D" && al.capacity_key == "ton") = 1 ∧
    dsAt.capacity_alerts.countP
      (fun al => al.machine_id == "D" && al.capacity_key == "ton") = 0 := by
  have hgetOver : dget dsOver.machine_usage "D" = some usageOver := by
    simp [dsOver, dget]
  have hgetAt : dget dsAt.machine_usage "D" = some usageAt := by
    simp [dsAt, dget]
  have hOver := (C7_capacity_alert_threshold dsOver
    (by simp [dsOver])
    (by norm_num [dsOver, usageOver, machD])
    (by norm_num [dsOver, usageOver])
    (by norm_num [dsOver, usageOver, machD])
    "D" "ton").1 usageOver hgetOver
  have hAt := (C7_capacity_alert_threshold dsAt
    (by simp [dsAt])
    (by norm_num [dsAt, usageAt, machD])
    (by norm_num [dsAt, usageAt])
    (by norm_num [dsAt, usageAt, machD])
    "D" "ton").1 usageAt hgetAt
  refine ⟨hgetOver, hgetAt, ?_, ?_⟩
  · rw [hOver.1, if_pos ?_]
    refine ⟨100, ?_, by norm_num, ?_⟩
    · simp [usageOver, machD, dget]
    · have : dgetD usageOver.capacity_used "ton" = 1000001/10000 := by
        simp [usageOver, dgetD, dget]
      rw [this]
      norm_num
  · rw [hAt.1, if_neg ?_]
    rintro ⟨c, hc, -, hlt⟩
    have hc100 : c = 100 := by
      simp [usageAt, machD, dget] at hc
      exact hc.symm
    have : dgetD usageAt.capacity_used "ton" = 100 := by
      simp [usageAt, dgetD, dget]
    rw [this, hc100] at hlt
    exact absurd hlt (by norm_num)

/-! ### C9: sparseness of the accumulator maps -/

/-- A step that produces 1 steam per unit on machine A. -/
def stepPlusSteam : RecipeStep :=
  { name := "p", target := "machine", machine_id := some "A",
    resource_changes := [("steam", 1)] }

/-- A step that consumes 1 steam per unit on machine A. -/
def stepMinusSteam : RecipeStep :=
  { name := "n", target := "machine", machine_id := some "A",
    resource_changes := [("steam", -1)] }

/-- A product whose two steps cancel each other's steam delta. -/
def prodZ : Product :=
  { id := "z", name := "Product Z", unit := "t", steps := [stepPlusSteam, stepMinusSteam] }

def plantZ : Plant :=
  { resources := [], machine_groups := [("g", groupG)],
    machines := [("A", machA)], products := [("z", prodZ)] }

def orderZ : ProductionOrder :=
  { date := 1, product_id := "z", machine_id := "A", quantity := 5 }

def dayZ : DaySummary :=
  ⟨1, [("z", 5)], [("A", ⟨machA, [], [("steam", 0)]⟩)], [("steam", 0)]⟩

def resZ : SimulationResult := ⟨plantZ, [dayZ]⟩

/-- Evaluation of the cancelling-contribution run: the +5 and -5 steam deltas
leave a stored entry `("steam", 0)` in machine A's `resource_balance`. -/
theorem simulate_plantZ : simulate plantZ [orderZ] = .ok resZ := by
  simp +decide [simulate, simulateDays, sortedDates, day_summary_for, applyOrders,
    applyOrder, applyStepsLoop, applyShare, scale_values, resolve_step_machines,
    Plant.get_product, Plant.get_machine, optTruthy, MachineUsage.add_capacity,
    MachineUsage.add_resource_balance, addEntries, dadd, dgetD, dget, dset,
    plantZ, orderZ, prodZ, stepPlusSteam, stepMinusSteam, machA, groupG, resZ, dayZ,
    List.insertionSort, List.orderedInsert] <;> norm_num

/-- C9 counterexample: after an order of quantity 5 for the cancelling
product, `simulate` stores the zero-valued entry `("steam", 0)` in machine
A's `MachineUsage.resource_balance` (value stored, equal to 0), so the
sparse-map claim fails. -/
theorem C9_counterexample :
    simulate plantZ [orderZ] = .ok resZ ∧
    dget dayZ.machine_usage "A" = some ⟨machA, [], [("steam", 0)]⟩ ∧
    dget ([("steam", (0 : ℚ))] : List (String × ℚ)) "steam" = some 0 := by
  refine ⟨simulate_plantZ, ?_, ?_⟩
  · simp [dayZ, dget]
  · simp [dget]

/-- C9 amended: the accumulator update of `MachineUsage.add_capacity` and
`MachineUsage.add_resource_balance` skips zero-valued contributions — adding
only zero values leaves the map unchanged, and a key absent from the map
remains absent unless some contribution for it is non-zero — but a stored
entry may itself hold 0 when non-zero contributions cancel. -/
theorem C9_amended_zero_contributions_never_stored
    (u : MachineUsage) (values : List (String × ℚ)) (k : String) :
    ((∀ p ∈ values, p.2 = 0) →
      u.add_capacity values = u ∧ u.add_resource_balance values = u) ∧
    (dget (u.add_capacity values).capacity_used k ≠ none →
      dget u.capacity_used k ≠ none ∨ ∃ p ∈ values, p.1 = k ∧ p.2 ≠ 0) ∧
    (dget (u.add_resource_balance values).resource_balance k ≠ none →
      dget u.resource_balance k ≠ none ∨ ∃ p ∈ values, p.1 = k ∧ p.2 ≠ 0) := by
  have hzero : ∀ (vs m : List (String × ℚ)), (∀ p ∈ vs, p.2 = 0) →
      addEntries m vs = m := by
    intro vs
    induction vs with
    | nil => intro m _; rfl
    | cons p rest ih =>
      intro m hv
      have hstep : addEntries m (p :: rest) = addEntries m rest := by
        unfold addEntries
        simp only [List.foldl_cons, if_pos (hv p (List.mem_cons_self _ _))]
      rw [hstep]
      exact ih m (fun p2 hp2 => hv p2 (List.mem_cons_of_mem _ hp2))
  have hpres : ∀ (vs m : List (String × ℚ)) (k2 : String),
      dget (addEntries m vs) k2 ≠ none →
      dget m k2 ≠ none ∨ ∃ p ∈ vs, p.1 = k2 ∧ p.2 ≠ 0 := by
    intro vs
    induction vs with
    | nil => intro m k2 h; exact Or.inl h
    | cons p rest ih =>
      intro m k2 h
      by_cases hp : p.2 = 0
      · have hstep : addEntries m (p :: rest) = addEntries m rest := by
          unfold addEntries
          simp only [List.foldl_cons, if_pos hp]
        rw [hstep] at h
        rcases ih m k2 h with h1 | ⟨p2, hp2, hk2, hnz⟩
        · exact Or.inl h1
        · exact Or.inr ⟨p2, List.mem_cons_of_mem _ hp2, hk2, hnz⟩
      · have hstep : addEntries m (p :: rest)
            = addEntries (dset m p.1 (dgetD m p.1 + p.2)) rest := by
          unfold addEntries
          simp only [List.foldl_cons, if_neg hp]
        rw [hstep] at h
        rcases ih _ k2 h with h1 | ⟨p2, hp2, hk2, hnz⟩
        · rw [dget_dset] at h1
          by_cases hk : k2 = p.1
          · exact Or.inr ⟨p, List.mem_cons_self _ _, hk.symm, hp⟩
          · rw [if_neg hk] at h1
            exact Or.inl h1
        · exact Or.inr ⟨p2, List.mem_cons_of_mem _ hp2, hk2, hnz⟩
  refine ⟨?_, ?_, ?_⟩
  · intro hv
    constructor
    · unfold MachineUsage.add_capacity
      rw [hzero values u.capacity_used hv]
    · unfold MachineUsage.add_resource_balance
      rw [hzero values u.resource_balance hv]
  · intro h
    exact hpres values u.capacity_used k h
  · intro h
    exact hpres values u.resource_balance k h

/-- C9 amended witness: adding the zero-valued contribution {ton: 0} leaves
an empty usage unchanged, and presence of the key "ton" after a mixed add
implies a non-zero contribution for it. -/
theorem C9_amended_zero_contributions_never_stored_witness :
    ((∀ p ∈ ([(("ton" : String), (0 : ℚ))] : List (String × ℚ)), p.2 = 0) ∧
      ((⟨machA, [], []⟩ : MachineUsage).add_capacity [("ton", 0)] = ⟨machA, [], []⟩ ∧
       (⟨machA, [], []⟩ : MachineUsage).add_resource_balance [("ton", 0)]
         = ⟨machA, [], []⟩)) ∧
    (dget ((⟨machA, [], []⟩ : MachineUsage).add_capacity
        [("ton", 0)]).capacity_used "ton" ≠ none →
      dget ([] : List (String × ℚ)) "ton" ≠ none ∨
        ∃ p ∈ ([(("ton" : String), (0 : ℚ))] : List (String × ℚ)), p.1 = "ton" ∧ p.2 ≠ 0) := by
  have hz : ∀ p ∈ ([(("ton" : String), (0 : ℚ))] : List (String × ℚ)), p.2 = 0 := by
    intro p hp
    rw [List.mem_singleton] at hp
    rw [hp]
  refine ⟨⟨hz, (C9_amended_zero_contributions_never_stored ⟨machA, [], []⟩
    [("ton", 0)] "ton").1 hz⟩, ?_⟩
  exact (C9_amended_zero_contributions_never_stored ⟨machA, [], []⟩ [("ton", 0)] "ton").2.1

/-! ### C2: conservation of the day resource balance -/

/-- Sum of the values carried by key `k` in a contribution list. -/
def sumAt (values : List (String × ℚ)) (k : String) : ℚ :=
  ((values.filter (fun p => p.1 == k)).map (fun p => p.2)).sum

theorem sumAt_nil (k : String) : sumAt [] k = 0 := rfl

theorem sumAt_cons (p : String × ℚ) (rest : List (String × ℚ)) (k : String) :
    sumAt (p :: rest) k = (if p.1 = k then p.2 else 0) + sumAt rest k := by
  unfold sumAt
  rw [List.filter_cons]
  by_cases h : p.1 = k
  · simp [h]
  · simp [h]

theorem dgetD_dset (m : List (String × ℚ)) (k1 : String) (v : ℚ) (k : String) :
    dgetD (dset m k1 v) k = if k = k1 then v else dgetD m k := by
  unfold dgetD
  rw [dget_dset]
  by_cases h : k = k1 <;> simp [h]

theorem dgetD_addEntries :
    ∀ (vs m : List (String × ℚ)) (k : String),
    dgetD (addEntries m vs) k = dgetD m k + sumAt vs k := by
  intro vs
  induction vs with
  | nil =>
    intro m k
    rw [sumAt_nil]
    show dgetD m k = dgetD m k + 0
    ring
  | cons p rest ih =>
    intro m k
    rw [sumAt_cons]
    by_cases hp : p.2 = 0
    · have hstep : addEntries m (p :: rest) = addEntries m rest := by
        unfold addEntries
        simp only [List.foldl_cons, if_pos hp]
      rw [hstep, ih m k, hp]
      by_cases hk : p.1 = k <;> simp [hk]
    · have hstep : addEntries m (p :: rest)
          = addEntries (dset m p.1 (dgetD m p.1 + p.2)) rest := by
        unfold addEntries
        simp only [List.foldl_cons, if_neg hp]
      rw [hstep, ih _ k, dgetD_dset]
      by_cases hk : k = p.1
      · rw [if_pos hk, if_pos (hk ▸ rfl), hk]
        ring
      · rw [if_neg hk, if_neg (fun hh => hk hh.symm)]
        ring

theorem dgetD_foldl_dadd :
    ∀ (vs rb : List (String × ℚ)) (k : String),
    dgetD (vs.foldl (fun rb p => dadd rb p.1 p.2) rb) k = dgetD rb k + sumAt vs k := by
  intro vs
  induction vs with
  | nil =>
    intro rb k
    rw [sumAt_nil]
    show dgetD rb k = dgetD rb k + 0
    ring
  | cons p rest ih =>
    intro rb k
    simp only [List.foldl_cons]
    rw [ih (dadd rb p.1 p.2) k, sumAt_cons, dgetD_dadd]
    by_cases hk : k = p.1
    · subst hk
      rw [if_pos rfl, if_pos rfl]
      ring
    · rw [if_neg hk, if_neg (fun hh => hk hh.symm)]
      ring

/-- Plant-wide sum of the per-machine resource balances for resource `r`. -/
def musum (mu : List (String × MachineUsage)) (r : String) : ℚ :=
  (mu.map (fun q => dgetD q.2.resource_balance r)).sum

theorem musum_dset :
    ∀ (mu : List (String × MachineUsage)) (mid : String) (u : MachineUsage) (r : String),
    musum (dset mu mid u) r
      = musum mu r + dgetD u.resource_balance r
        - ((dget mu mid).map (fun u0 => dgetD u0.resource_balance r)).getD 0 := by
  intro mu
  induction mu with
  | nil =>
    intro mid u r
    unfold musum
    rw [dget_nil]
    simp [dset]
  | cons q rest ih =>
    intro mid u r
    by_cases hq : q.1 = mid
    · have hds : dset (q :: rest) mid u = (mid, u) :: rest := by
        rw [show dset (q :: rest) mid u
          = if q.1 = mid then (mid, u) :: rest else q :: dset rest mid u from rfl,
          if_pos hq]
      rw [hds, dget_cons, if_pos hq]
      unfold musum
      simp only [List.map_cons, List.sum_cons, Option.map_some', Option.getD_some]
      ring
    · have hds : dset (q :: rest) mid u = q :: dset rest mid u := by
        rw [show dset (q :: rest) mid u
          = if q.1 = mid then (mid, u) :: rest else q :: dset rest mid u from rfl,
          if_neg hq]
      rw [hds, dget_cons, if_neg hq]
      unfold musum
      simp only [List.map_cons, List.sum_cons]
      have := ih mid u r
      unfold musum at this
      rw [this]
      ring

/-- The conservation invariant maintained by the day loop: the day's
`resource_balance` equals the sum of the per-machine balances. -/
def InvCons (st : DayState) : Prop :=
  ∀ r, dgetD st.resource_balance r = musum st.machine_usage r

theorem applyShare_inv (order : ProductionOrder) (step : RecipeStep) (st : DayState)
    (pr : Machine × ℚ) (h : InvCons st) : InvCons (applyShare order step st pr) := by
  intro r
  unfold applyShare
  dsimp only
  rw [dgetD_foldl_dadd, musum_dset]
  have hrb : ((((dget st.machine_usage pr.1.id).getD
        ⟨pr.1, [], []⟩).add_capacity
          (scale_values step.capacity_usage (order.quantity * pr.2))).add_resource_balance
            (scale_values step.resource_changes (order.quantity * pr.2))).resource_balance
      = addEntries ((dget st.machine_usage pr.1.id).getD
          ⟨pr.1, [], []⟩).resource_balance
          (scale_values step.resource_changes (order.quantity * pr.2)) := rfl
  rw [hrb, dgetD_addEntries]
  have husage0 : dgetD ((dget st.machine_usage pr.1.id).getD
        ⟨pr.1, [], []⟩).resource_balance r
      = ((dget st.machine_usage pr.1.id).map
          (fun u0 => dgetD u0.resource_balance r)).getD 0 := by
    cases hget : dget st.machine_usage pr.1.id with
    | none => rfl
    | some u0 => rfl
  rw [husage0, h r]
  ring

theorem foldl_applyShare_inv (order : ProductionOrder) (step : RecipeStep) :
    ∀ (prs : List (Machine × ℚ)) (st : DayState), InvCons st →
    InvCons (prs.foldl (applyShare order step) st) := by
  intro prs
  induction prs with
  | nil => intro st h; exact h
  | cons pr rest ih =>
    intro st h
    rw [List.foldl_cons]
    exact ih _ (applyShare_inv order step st pr h)

theorem applyStepsLoop_inv (plant : Plant) (order : ProductionOrder) :
    ∀ (steps : List RecipeStep) (st st2 : DayState),
    applyStepsLoop plant order steps st = .ok st2 → InvCons st → InvCons st2 := by
  intro steps
  induction steps with
  | nil =>
    intro st st2 h hinv
    unfold applyStepsLoop at h
    rw [← Except.ok.inj h]
    exact hinv
  | cons step rest ih =>
    intro st st2 h hinv
    unfold applyStepsLoop at h
    cases hres : resolve_step_machines step order plant with
    | error e =>
      rw [hres] at h
      exact absurd h (by simp)
    | ok pairs =>
      rw [hres] at h
      dsimp only at h
      exact ih _ st2 h (foldl_applyShare_inv order step pairs st hinv)

theorem applyOrder_inv (plant : Plant) (st st2 : DayState) (o : ProductionOrder)
    (h : applyOrder plant st o = .ok st2) (hinv : InvCons st) : InvCons st2 := by
  unfold applyOrder at h
  cases hp : plant.get_product o.product_id with
  | error e =>
    rw [hp] at h
    exact absurd h (by simp)
  | ok product =>
    rw [hp] at h
    dsimp only at h
    refine applyStepsLoop_inv plant o product.steps _ st2 h ?_
    intro r
    exact hinv r

theorem applyOrders_inv (plant : Plant) :
    ∀ (os : List ProductionOrder) (st st2 : DayState),
    applyOrders plant os st = .ok st2 → InvCons st → InvCons st2 := by
  intro os
  induction os with
  | nil =>
    intro st st2 h hinv
    unfold applyOrders at h
    rw [← Except.ok.inj h]
    exact hinv
  | cons o rest ih =>
    intro st st2 h hinv
    unfold applyOrders at h
    cases ho : applyOrder plant st o with
    | error e =>
      rw [ho] at h
      exact absurd h (by simp)
    | ok st1 =>
      rw [ho] at h
      dsimp only at h
      exact ih st1 st2 h (applyOrder_inv plant st st1 o ho hinv)

theorem day_summary_for_inv {plant : Plant} {d : Nat} {os : List ProductionOrder}
    {ds : DaySummary} (h : day_summary_for plant d os = .ok ds) :
    ∀ r, dgetD ds.resource_balance r = musum ds.machine_usage r := by
  unfold day_summary_for at h
  cases ho : applyOrders plant os ⟨[], [], []⟩ with
  | error e =>
    rw [ho] at h
    exact absurd h (by simp)
  | ok st =>
    rw [ho] at h
    dsimp only at h
    have hinv : InvCons st :=
      applyOrders_inv plant os ⟨[], [], []⟩ st ho (fun r => rfl)
    rw [← Except.ok.inj h]
    exact hinv

theorem simulateDays_mem {plant : Plant} {plan : List ProductionOrder} :
    ∀ {dates : List Nat} {days : List DaySummary},
    simulateDays plant plan dates = .ok days → ∀ ds ∈ days,
    ∃ d, day_summary_for plant d (plan.filter (fun o => o.date == d)) = .ok ds := by
  intro dates
  induction dates with
  | nil =>
    intro days h ds hds
    unfold simulateDays at h
    rw [← Except.ok.inj h] at hds
    exact absurd hds (List.not_mem_nil ds)
  | cons d rest ih =>
    intro days h ds hds
    unfold simulateDays at h
    cases hd : day_summary_for plant d (plan.filter (fun o => o.date == d)) with
    | error e =>
      rw [hd] at h
      exact absurd h (by simp)
    | ok ds1 =>
      rw [hd] at h
      dsimp only at h
      cases hrest : simulateDays plant plan rest with
      | error e =>
        rw [hrest] at h
        exact absurd h (by simp)
      | ok tail =>
        rw [hrest] at h
        dsimp only at h
        rw [← Except.ok.inj h] at hds
        rcases List.mem_cons.mp hds with he | hr
        · exact ⟨d, he ▸ hd⟩
        · exact ih hrest ds hr

/-- C2: in every `DaySummary` produced by `simulate`, for every resource id
`r` the sum of the per-machine `resource_balance[r]` entries (absent entries
counting as zero) equals the day-level `resource_balance[r]` exactly. -/
theorem C2_conservation {plant : Plant} {plan : List ProductionOrder}
    {res : SimulationResult} (h : simulate plant plan = .ok res) :
    ∀ ds ∈ res.days, ∀ r,
      (ds.machine_usage.map (fun q => dgetD q.2.resource_balance r)).sum
        = dgetD ds.resource_balance r := by
  intro ds hds r
  unfold simulate at h
  cases hsd : simulateDays plant plan (sortedDates plan) with
  | error e =>
    rw [hsd] at h
    exact absurd h (by simp)
  | ok days =>
    rw [hsd] at h
    dsimp only at h
    rw [← Except.ok.inj h] at hds
    obtain ⟨d, hd⟩ := simulateDays_mem hsd ds hds
    exact (day_summary_for_inv hd r).symm

/-- C2 witness: in the cancelling-product run, machine A's steam balance (0)
sums to the day-level steam balance (0). -/
theorem C2_conservation_witness :
    simulate plantZ [orderZ] = .ok resZ ∧ dayZ ∈ resZ.days ∧
    (dayZ.machine_usage.map (fun q => dgetD q.2.resource_balance "steam")).sum
      = dgetD dayZ.resource_balance "steam" := by
  exact ⟨simulate_plantZ, by simp [resZ],
    C2_conservation simulate_plantZ dayZ (by simp [resZ]) "steam"⟩

/-! ### C4: chronological ordering of the day summaries -/

theorem day_summary_for_date {plant : Plant} {d : Nat} {os : List ProductionOrder}
    {ds : DaySummary} (h : day_summary_for plant d os = .ok ds) : ds.date = d := by
  unfold day_summary_for at h
  cases ho : applyOrders plant os ⟨[], [], []⟩ with
  | error e =>
    rw [ho] at h
    exact absurd h (by simp)
  | ok st =>
    rw [ho] at h
    dsimp only at h
    rw [← Except.ok.inj h]

theorem simulateDays_dates {plant : Plant} {plan : List ProductionOrder} :
    ∀ {dates : List Nat} {days : List DaySummary},
    simulateDays plant plan dates = .ok days →
    days.map (fun ds => ds.date) = dates := by
  intro dates
  induction dates with
  | nil =>
    intro days h
    unfold simulateDays at h
    rw [← Except.ok.inj h]
    rfl
  | cons d rest ih =>
    intro days h
    unfold simulateDays at h
    cases hd : day_summary_for plant d (plan.filter (fun o => o.date == d)) with
    | error e =>
      rw [hd] at h
      exact absurd h (by simp)
    | ok ds1 =>
      rw [hd] at h
      dsimp only at h
      cases hrest : simulateDays plant plan rest with
      | error e =>
        rw [hrest] at h
        exact absurd h (by simp)
      | ok tail =>
        rw [hrest] at h
        dsimp only at h
        rw [← Except.ok.inj h, List.map_cons, ih hrest, day_summary_for_date hd]

theorem sortedDates_perm_dedup (plan : List ProductionOrder) :
    List.Perm (sortedDates plan) ((plan.map (fun o => o.date)).dedup) :=
  List.perm_insertionSort _ _

/-- C4: the days of a simulation result are strictly ascending by date, their
dates are exactly the distinct dates of the input orders, and their number is
the number of distinct order dates. -/
theorem C4_chronological_days {plant : Plant} {plan : List ProductionOrder}
    {res : SimulationResult} (h : simulate plant plan = .ok res) :
    (res.days.map (fun ds => ds.date)).Sorted (· < ·) ∧
    (∀ d, d ∈ res.days.map (fun ds => ds.date) ↔ ∃ o ∈ plan, o.date = d) ∧
    res.days.length = ((plan.map (fun o => o.date)).dedup).length := by
  unfold simulate at h
  cases hsd : simulateDays plant plan (sortedDates plan) with
  | error e =>
    rw [hsd] at h
    exact absurd h (by simp)
  | ok days =>
    rw [hsd] at h
    dsimp only at h
    have hdays : res.days = days := by rw [← Except.ok.inj h]
    have hdates : res.days.map (fun ds => ds.date) = sortedDates plan := by
      rw [hdays]
      exact simulateDays_dates hsd
    have hsorted : (sortedDates plan).Sorted (· ≤ ·) :=
      List.sorted_insertionSort _ _
    have hnd : (sortedDates plan).Nodup :=
      (sortedDates_perm_dedup plan).nodup_iff.mpr (List.nodup_dedup _)
    refine ⟨?_, ?_, ?_⟩
    · rw [hdates]
      exact (List.Pairwise.and hsorted hnd).imp (fun hab => lt_of_le_of_ne hab.1 hab.2)
    · intro d
      rw [hdates, (sortedDates_perm_dedup plan).mem_iff, List.mem_dedup, List.mem_map]
    · have h1 : res.days.length = (res.days.map (fun ds => ds.date)).length := by
        rw [List.length_map]
      rw [h1, hdates, (sortedDates_perm_dedup plan).length_eq]

/-- A second order for the cancelling product, dated the later day 2. -/
def orderZ2 : ProductionOrder :=
  { date := 2, product_id := "z", machine_id := "A", quantity := 3 }

def dayZ2 : DaySummary :=
  ⟨2, [("z", 3)], [("A", ⟨machA, [], [("steam", 0)]⟩)], [("steam", 0)]⟩

def resZ12 : SimulationResult := ⟨plantZ, [dayZ, dayZ2]⟩

/-- Evaluation of the two-day run: the orders are given dated {2, 1} and the
result days come out in ascending order {1, 2}. -/
theorem simulate_plantZ_two : simulate plantZ [orderZ2, orderZ] = .ok resZ12 := by
  have hdates : sortedDates [orderZ2, orderZ] = [1, 2] := by decide
  simp +decide [simulate, hdates, simulateDays, day_summary_for, applyOrders,
    applyOrder, applyStepsLoop, applyShare, scale_values, resolve_step_machines,
    Plant.get_product, Plant.get_machine, optTruthy, MachineUsage.add_capacity,
    MachineUsage.add_resource_balance, addEntries, dadd, dgetD, dget, dset,
    plantZ, orderZ, orderZ2, prodZ, stepPlusSteam, stepMinusSteam, machA, groupG,
    resZ12, dayZ, dayZ2] <;> norm_num

/-- C4 witness: orders dated {2, 1} produce days dated [1, 2]: strictly
ascending, containing exactly the distinct input dates, of length 2. -/
theorem C4_chronological_days_witness :
    simulate plantZ [orderZ2, orderZ] = .ok resZ12 ∧
    ((resZ12.days.map (fun ds => ds.date)).Sorted (· < ·) ∧
      (1 ∈ resZ12.days.map (fun ds => ds.date) ↔ ∃ o ∈ [orderZ2, orderZ], o.date = 1) ∧
      resZ12.days.length
        = ((([orderZ2, orderZ] : List ProductionOrder).map (fun o => o.date)).dedup).length) := by
  have h := C4_chronological_days simulate_plantZ_two
  exact ⟨simulate_plantZ_two, h.1, h.2.1 1, h.2.2⟩

/-! ### C10: zero-quantity orders are still recorded -/

theorem mem_dset {α : Type} :
    ∀ {l : List (String × α)} {k : String} {v : α} {q : String × α},
    q ∈ dset l k v → q ∈ l ∨ q = (k, v) := by
  intro l
  induction l with
  | nil =>
    intro k v q hq
    rcases List.mem_singleton.mp hq with h
    exact Or.inr h
  | cons p rest ih =>
    intro k v q hq
    by_cases hp : p.1 = k
    · rw [show dset (p :: rest) k v
        = if p.1 = k then (k, v) :: rest else p :: dset rest k v from rfl,
        if_pos hp] at hq
      rcases List.mem_cons.mp hq with he | hr
      · exact Or.inr he
      · exact Or.inl (List.mem_cons_of_mem _ hr)
    · rw [show dset (p :: rest) k v
        = if p.1 = k then (k, v) :: rest else p :: dset rest k v from rfl,
        if_neg hp] at hq
      rcases List.mem_cons.mp hq with he | hr
      · exact Or.inl (he ▸ List.mem_cons_self _ _)
      · rcases ih hr with h1 | h1
        · exact Or.inl (List.mem_cons_of_mem _ h1)
        · exact Or.inr h1

theorem addEntries_of_zeros :
    ∀ (vs m : List (String × ℚ)), (∀ p ∈ vs, p.2 = 0) → addEntries m vs = m := by
  intro vs
  induction vs with
  | nil => intro m _; rfl
  | cons p rest ih =>
    intro m hv
    have hstep : addEntries m (p :: rest) = addEntries m rest := by
      unfold addEntries
      simp only [List.foldl_cons, if_pos (hv p (List.mem_cons_self _ _))]
    rw [hstep]
    exact ih m (fun p2 hp2 => hv p2 (List.mem_cons_of_mem _ hp2))

theorem scale_values_by_zero (values : List (String × ℚ)) :
    ∀ p ∈ scale_values values 0, p.2 = 0 := by
  intro p hp
  obtain ⟨q, -, hpq⟩ := List.mem_map.mp hp
  rw [← hpq]
  simp

theorem dgetD_of_all_zero {rb : List (String × ℚ)} (h : ∀ e ∈ rb, e.2 = 0)
    (k : String) : dgetD rb k = 0 := by
  cases hg : dget rb k with
  | none => rw [dgetD, hg]; rfl
  | some v =>
    rw [dgetD, hg]
    exact h (k, v) (dget_mem hg)

theorem mem_foldl_dadd_zero :
    ∀ (vs rb : List (String × ℚ)), (∀ e ∈ rb, e.2 = 0) → (∀ p ∈ vs, p.2 = 0) →
    ∀ e ∈ vs.foldl (fun rb p => dadd rb p.1 p.2) rb, e.2 = 0 := by
  intro vs
  induction vs with
  | nil => intro rb hrb _ e he; exact hrb e he
  | cons p rest ih =>
    intro rb hrb hv e he
    simp only [List.foldl_cons] at he
    refine ih (dadd rb p.1 p.2) ?_ (fun p2 hp2 => hv p2 (List.mem_cons_of_mem _ hp2)) e he
    intro e2 he2
    rcases mem_dset he2 with h1 | h1
    · exact hrb e2 h1
    · rw [h1]
      show dgetD rb p.1 + p.2 = 0
      rw [dgetD_of_all_zero hrb, hv p (List.mem_cons_self _ _)]
      ring

theorem dget_dset_isSome {α : Type} {l : List (String × α)} {k2 : String}
    (h : (dget l k2).isSome = true) (k : String) (v : α) :
    (dget (dset l k v) k2).isSome = true := by
  rw [dget_dset]
  by_cases hk : k2 = k
  · rw [if_pos hk]
    rfl
  · rw [if_neg hk]
    exact h

theorem dget_foldl_dadd_isSome :
    ∀ (vs rb : List (String × ℚ)) (k : String), (dget rb k).isSome = true →
    (dget (vs.foldl (fun rb p => dadd rb p.1 p.2) rb) k).isSome = true := by
  intro vs
  induction vs with
  | nil => intro rb k h; exact h
  | cons p rest ih =>
    intro rb k h
    simp only [List.foldl_cons]
    exact ih (dadd rb p.1 p.2) k (dget_dset_isSome h p.1 _)

theorem dget_foldl_dadd_keys :
    ∀ (vs rb : List (String × ℚ)), ∀ p ∈ vs,
    (dget (vs.foldl (fun rb p => dadd rb p.1 p.2) rb) p.1).isSome = true := by
  intro vs
  induction vs with
  | nil => intro rb p hp; exact absurd hp (List.not_mem_nil p)
  | cons q rest ih =>
    intro rb p hp
    simp only [List.foldl_cons]
    rcases List.mem_cons.mp hp with he | hr
    · refine dget_foldl_dadd_isSome rest (dadd rb q.1 q.2) p.1 ?_
      rw [he]
      unfold dadd
      rw [dget_dset, if_pos rfl]
      rfl
    · exact ih (dadd rb q.1 q.2) p hr

theorem applyShare_machine_usage (o : ProductionOrder) (s : RecipeStep) (st : DayState)
    (pr : Machine × ℚ) :
    (applyShare o s st pr).machine_usage
      = dset st.machine_usage pr.1.id
          ((((dget st.machine_usage pr.1.id).getD ⟨pr.1, [], []⟩).add_capacity
              (scale_values s.capacity_usage (o.quantity * pr.2))).add_resource_balance
            (scale_values s.resource_changes (o.quantity * pr.2))) := rfl

theorem applyShare_resource_balance (o : ProductionOrder) (s : RecipeStep) (st : DayState)
    (pr : Machine × ℚ) :
    (applyShare o s st pr).resource_balance
      = (scale_values s.resource_changes (o.quantity * pr.2)).foldl
          (fun rb p => dadd rb p.1 p.2) st.resource_balance := rfl

theorem applyShare_product_totals (o : ProductionOrder) (s : RecipeStep) (st : DayState)
    (pr : Machine × ℚ) :
    (applyShare o s st pr).product_totals = st.product_totals := rfl

/-- The all-zero accumulator invariant of a zero-quantity-only day. -/
def ZeroState (st : DayState) : Prop :=
  (∀ e ∈ st.product_totals, e.2 = 0) ∧
  (∀ q ∈ st.machine_usage, q.2.capacity_used = [] ∧ q.2.resource_balance = []) ∧
  (∀ e ∈ st.resource_balance, e.2 = 0)

theorem applyShare_zero {o : ProductionOrder} {s : RecipeStep} {st : DayState}
    (pr : Machine × ℚ) (hq : o.quantity = 0) (hz : ZeroState st) :
    ZeroState (applyShare o s st pr) ∧
    (∀ k, (dget st.machine_usage k).isSome = true →
      (dget (applyShare o s st pr).machine_usage k).isSome = true) ∧
    (dget (applyShare o s st pr).machine_usage pr.1.id).isSome = true ∧
    (∀ k, (dget st.resource_balance k).isSome = true →
      (dget (applyShare o s st pr).resource_balance k).isSome = true) ∧
    (∀ e ∈ s.resource_changes,
      (dget (applyShare o s st pr).resource_balance e.1).isSome = true) := by
  have hqf : o.quantity * pr.2 = 0 := by rw [hq]; ring
  have hcapz : ∀ p ∈ scale_values s.capacity_usage (o.quantity * pr.2), p.2 = 0 := by
    rw [hqf]
    exact scale_values_by_zero s.capacity_usage
  have hresz : ∀ p ∈ scale_values s.resource_changes (o.quantity * pr.2), p.2 = 0 := by
    rw [hqf]
    exact scale_values_by_zero s.resource_changes
  have husage0 : (((dget st.machine_usage pr.1.id).getD ⟨pr.1, [], []⟩).capacity_used = []
      ∧ ((dget st.machine_usage pr.1.id).getD ⟨pr.1, [], []⟩).resource_balance = []) := by
    cases hg : dget st.machine_usage pr.1.id with
    | none => exact ⟨rfl, rfl⟩
    | some u0 =>
      simp only [Option.getD_some]
      exact hz.2.1 (pr.1.id, u0) (dget_mem hg)
  have husage2 : ((((dget st.machine_usage pr.1.id).getD ⟨pr.1, [], []⟩).add_capacity
        (scale_values s.capacity_usage (o.quantity * pr.2))).add_resource_balance
          (scale_values s.resource_changes (o.quantity * pr.2))).capacity_used = []
      ∧ ((((dget st.machine_usage pr.1.id).getD ⟨pr.1, [], []⟩).add_capacity
        (scale_values s.capacity_usage (o.quantity * pr.2))).add_resource_balance
          (scale_values s.resource_changes (o.quantity * pr.2))).resource_balance = [] := by
    constructor
    · show addEntries (((dget st.machine_usage pr.1.id).getD
        ⟨pr.1, [], []⟩).capacity_used) (scale_values s.capacity_usage (o.quantity * pr.2)) = []
      rw [addEntries_of_zeros _ _ hcapz, husage0.1]
    · show addEntries (((dget st.machine_usage pr.1.id).getD
        ⟨pr.1, [], []⟩).resource_balance)
          (scale_values s.resource_changes (o.quantity * pr.2)) = []
      rw [addEntries_of_zeros _ _ hresz, husage0.2]
  refine ⟨⟨?_, ?_, ?_⟩, ?_, ?_, ?_, ?_⟩
  · rw [applyShare_product_totals]
    exact hz.1
  · rw [applyShare_machine_usage]
    intro q hq2
    rcases mem_dset hq2 with h1 | h1
    · exact hz.2.1 q h1
    · rw [h1]
      exact husage2
  · rw [applyShare_resource_balance]
    exact mem_foldl_dadd_zero _ _ hz.2.2 hresz
  · intro k hk
    rw [applyShare_machine_usage]
    exact dget_dset_isSome hk _ _
  · rw [applyShare_machine_usage, dget_dset, if_pos rfl]
    rfl
  · intro k hk
    rw [applyShare_resource_balance]
    exact dget_foldl_dadd_isSome _ _ k hk
  · intro e he
    rw [applyShare_resource_balance]
    have hmem : ((e.1, e.2 * (o.quantity * pr.2)) : String × ℚ)
        ∈ scale_values s.resource_changes (o.quantity * pr.2) := by
      unfold scale_values
      exact List.mem_map.mpr ⟨e, he, rfl⟩
    exact dget_foldl_dadd_keys _ st.resource_balance
      ((e.1, e.2 * (o.quantity * pr.2)) : String × ℚ) hmem

theorem foldl_applyShare_zero {o : ProductionOrder} {s : RecipeStep}
    (hq : o.quantity = 0) :
    ∀ (prs : List (Machine × ℚ)) (st : DayState), ZeroState st →
    ZeroState (prs.foldl (applyShare o s) st) ∧
    (∀ k, (dget st.machine_usage k).isSome = true →
      (dget (prs.foldl (applyShare o s) st).machine_usage k).isSome = true) ∧
    (∀ pr ∈ prs,
      (dget (prs.foldl (applyShare o s) st).machine_usage pr.1.id).isSome = true) ∧
    (∀ k, (dget st.resource_balance k).isSome = true →
      (dget (prs.foldl (applyShare o s) st).resource_balance k).isSome = true) ∧
    (prs ≠ [] → ∀ e ∈ s.resource_changes,
      (dget (prs.foldl (applyShare o s) st).resource_balance e.1).isSome = true) ∧
    (prs.foldl (applyShare o s) st).product_totals = st.product_totals := by
  intro prs
  induction prs with
  | nil =>
    intro st hz
    refine ⟨hz, fun k h => h, ?_, fun k h => h, ?_, rfl⟩
    · intro pr hpr
      exact absurd hpr (List.not_mem_nil pr)
    · intro hne
      exact absurd rfl hne
  | cons pr rest ih =>
    intro st hz
    rw [List.foldl_cons]
    obtain ⟨hz1, hmu1, hpr1, hrb1, hkeys1⟩ := applyShare_zero pr hq hz
    obtain ⟨hz2, hmu2, hprs2, hrb2, hkeys2, hpt2⟩ := ih (applyShare o s st pr) hz1
    refine ⟨hz2, ?_, ?_, ?_, ?_, ?_⟩
    · intro k hk
      exact hmu2 k (hmu1 k hk)
    · intro pr2 hpr2
      rcases List.mem_cons.mp hpr2 with he | hr
      · exact he ▸ hmu2 pr.1.id hpr1
      · exact hprs2 pr2 hr
    · intro k hk
      exact hrb2 k (hrb1 k hk)
    · intro _ e he
      exact hrb2 e.1 (hkeys1 e he)
    · rw [hpt2, applyShare_product_totals]

theorem resolve_ok_ne_nil {step : RecipeStep} {o : ProductionOrder} {plant : Plant}
    {pairs : List (Machine × ℚ)}
    (h : resolve_step_machines step o plant = .ok pairs) : pairs ≠ [] := by
  unfold resolve_step_machines at h
  by_cases h1 : step.target = "order_machine"
  · rw [if_pos h1] at h
    cases hm : plant.get_machine o.machine_id with
    | error e => rw [hm] at h; exact absurd h (by simp)
    | ok machine =>
      rw [hm] at h
      dsimp only at h
      by_cases h2 : optTruthy step.required_group = true
          ∧ machine.group_id ≠ step.required_group.getD ""
      · rw [if_pos h2] at h
        exact absurd h (by simp)
      · rw [if_neg h2] at h
        rw [← Except.ok.inj h]
        simp
  · rw [if_neg h1] at h
    by_cases h2 : step.target = "machine"
    · rw [if_pos h2] at h
      by_cases h3 : optTruthy step.machine_id = true
      · rw [if_pos h3] at h
        cases hm : plant.get_machine (step.machine_id.getD "") with
        | error e => rw [hm] at h; exact absurd h (by simp)
        | ok machine =>
          rw [hm] at h
          dsimp only at h
          rw [← Except.ok.inj h]
          simp
      · rw [if_neg h3] at h
        exact absurd h (by simp)
    · rw [if_neg h2] at h
      by_cases h3 : step.target = "group"
      · rw [if_pos h3] at h
        by_cases h4 : optTruthy step.group_id = true
        · rw [if_pos h4] at h
          cases hg : plant.machines_in_group (step.group_id.getD "") with
          | error e => rw [hg] at h; exact absurd h (by simp)
          | ok ms =>
            rw [hg] at h
            dsimp only at h
            cases hn : normalize_allocation ms step.allocation with
            | error e => rw [hn] at h; exact absurd h (by simp)
            | ok fr =>
              rw [hn] at h
              dsimp only at h
              by_cases h5 : resolveLoop fr ms = []
              · rw [if_pos h5] at h
                exact absurd h (by simp)
              · rw [if_neg h5] at h
                rw [← Except.ok.inj h]
                exact h5
        · rw [if_neg h4] at h
          exact absurd h (by simp)
      · rw [if_neg h3] at h
        exact absurd h (by simp)

theorem applyStepsLoop_zero {plant : Plant} {o : ProductionOrder} (hq : o.quantity = 0) :
    ∀ (steps : List RecipeStep) (st st2 : DayState),
    applyStepsLoop plant o steps st = .ok st2 → ZeroState st →
    ZeroState st2 ∧
    (∀ k, (dget st.machine_usage k).isSome = true →
      (dget st2.machine_usage k).isSome = true) ∧
    (∀ k, (dget st.resource_balance k).isSome = true →
      (dget st2.resource_balance k).isSome = true) ∧
    st2.product_totals = st.product_totals ∧
    (∀ step ∈ steps, ∀ pairs, resolve_step_machines step o plant = .ok pairs →
      (∀ pr ∈ pairs, (dget st2.machine_usage pr.1.id).isSome = true) ∧
      (∀ e ∈ step.resource_changes,
        (dget st2.resource_balance e.1).isSome = true)) := by
  intro steps
  induction steps with
  | nil =>
    intro st st2 h hz
    unfold applyStepsLoop at h
    rw [← Except.ok.inj h]
    refine ⟨hz, fun k hk => hk, fun k hk => hk, rfl, ?_⟩
    intro step hstep
    exact absurd hstep (List.not_mem_nil step)
  | cons step rest ih =>
    intro st st2 h hz
    unfold applyStepsLoop at h
    cases hres : resolve_step_machines step o plant with
    | error e =>
      rw [hres] at h
      exact absurd h (by simp)
    | ok pairs0 =>
      rw [hres] at h
      dsimp only at h
      obtain ⟨hz1, hmu1, hprs1, hrb1, hkeys1, hpt1⟩ :=
        foldl_applyShare_zero hq pairs0 st hz
      obtain ⟨hz2, hmu2, hrb2, hpt2, hsteps2⟩ := ih _ st2 h hz1
      refine ⟨hz2, ?_, ?_, ?_, ?_⟩
      · intro k hk
        exact hmu2 k (hmu1 k hk)
      · intro k hk
        exact hrb2 k (hrb1 k hk)
      · rw [hpt2, hpt1]
      · intro step2 hstep2 pairs hpairs
        rcases List.mem_cons.mp hstep2 with he | hr
        · subst he
          rw [hres] at hpairs
          have hpp : pairs0 = pairs := Except.ok.inj hpairs
          subst hpp
          constructor
          · intro pr hpr
            exact hmu2 pr.1.id (hprs1 pr hpr)
          · intro e he
            exact hrb2 e.1 (hkeys1 (resolve_ok_ne_nil hres) e he)
        · exact hsteps2 step2 hr pairs hpairs

theorem sortedDates_singleton (o : ProductionOrder) : sortedDates [o] = [o.date] := by
  unfold sortedDates
  have h1 : (([o] : List ProductionOrder).map (fun o => o.date)).dedup = [o.date] := by
    rw [List.map_cons, List.map_nil, List.dedup_cons_of_not_mem (by simp), List.dedup_nil]
  rw [h1]
  simp [List.insertionSort, List.orderedInsert]

/-- C10: a zero-quantity order whose product and steps all resolve is still
recorded: its day summary carries a 0 entry for the product, a machine-usage
entry with empty maps for every machine resolved by the steps, and a 0 entry
in the day's resource balance for every resource id of the steps'
`resource_changes`. -/
theorem C10_zero_quantity_order {plant : Plant} {o : ProductionOrder} {product : Product}
    {res : SimulationResult}
    (hq : o.quantity = 0)
    (hp : plant.get_product o.product_id = .ok product)
    (h : simulate plant [o] = .ok res) :
    ∃ ds, res.days = [ds] ∧ ds.date = o.date ∧
      dget ds.product_quantities product.id = some 0 ∧
      (∀ step ∈ product.steps, ∀ pairs, resolve_step_machines step o plant = .ok pairs →
        (∀ pr ∈ pairs, ∃ u, dget ds.machine_usage pr.1.id = some u ∧
          u.capacity_used = [] ∧ u.resource_balance = []) ∧
        (∀ e ∈ step.resource_changes, dget ds.resource_balance e.1 = some 0)) := by
  unfold simulate at h
  rw [sortedDates_singleton o] at h
  unfold simulateDays at h
  have hfilter : ([o] : List ProductionOrder).filter (fun x => x.date == o.date) = [o] := by
    simp
  rw [hfilter] at h
  cases hd : day_summary_for plant o.date [o] with
  | error e =>
    rw [hd] at h
    exact absurd h (by simp)
  | ok ds =>
    rw [hd] at h
    dsimp only at h
    unfold simulateDays at h
    dsimp only at h
    unfold day_summary_for at hd
    cases ho : applyOrders plant [o] ⟨[], [], []⟩ with
    | error e =>
      rw [ho] at hd
      exact absurd hd (by simp)
    | ok st1 =>
      rw [ho] at hd
      dsimp only at hd
      unfold applyOrders at ho
      cases hoo : applyOrder plant ⟨[], [], []⟩ o with
      | error e =>
        rw [hoo] at ho
        exact absurd ho (by simp)
      | ok st1b =>
        rw [hoo] at ho
        dsimp only at ho
        unfold applyOrders at ho
        have hst1 : st1b = st1 := Except.ok.inj ho
        subst hst1
        unfold applyOrder at hoo
        rw [hp] at hoo
        dsimp only at hoo
        have hz0 : ZeroState ⟨dadd [] product.id o.quantity, [], []⟩ := by
          refine ⟨?_, ?_, ?_⟩
          · intro e he
            rw [hq] at he
            rcases mem_dset he with h1 | h1
            · exact absurd h1 (List.not_mem_nil e)
            · rw [h1]
              show dgetD [] product.id + 0 = 0
              simp [dgetD, dget_nil]
          · intro q hq2
            exact absurd hq2 (List.not_mem_nil q)
          · intro e he
            exact absurd he (List.not_mem_nil e)
        obtain ⟨hz1, -, -, hpt1, hsteps1⟩ :=
          applyStepsLoop_zero hq product.steps _ st1b hoo hz0
        have hds_pt : ds.product_quantities = st1b.product_totals := by
          rw [← Except.ok.inj hd]
        have hds_mu : ds.machine_usage = st1b.machine_usage := by
          rw [← Except.ok.inj hd]
        have hds_rb : ds.resource_balance = st1b.resource_balance := by
          rw [← Except.ok.inj hd]
        refine ⟨ds, by rw [← Except.ok.inj h], by rw [← Except.ok.inj hd], ?_, ?_⟩
        · rw [hds_pt, hpt1]
          show dget (dadd [] product.id o.quantity) product.id = some 0
          rw [dget_dadd, if_pos rfl, hq]
          show some (dgetD [] product.id + 0) = some 0
          simp [dgetD, dget_nil]
        · intro step hstep pairs hpairs
          obtain ⟨hprs, hres⟩ := hsteps1 step hstep pairs hpairs
          constructor
          · intro pr hpr
            have h1 := hprs pr hpr
            rw [hds_mu]
            cases hg : dget st1b.machine_usage pr.1.id with
            | none => rw [hg] at h1; exact absurd h1 (by simp)
            | some u =>
              refine ⟨u, rfl, ?_⟩
              exact hz1.2.1 (pr.1.id, u) (dget_mem hg)
          · intro e he
            have h1 := hres e he
            rw [hds_rb]
            cases hg : dget st1b.resource_balance e.1 with
            | none => rw [hg] at h1; exact absurd h1 (by simp)
            | some v =>
              have hv : v = 0 := hz1.2.2 (e.1, v) (dget_mem hg)
              rw [hv]

/-- A zero-quantity order for the two-step product. -/
def orderZ0 : ProductionOrder :=
  { date := 1, product_id := "z", machine_id := "A", quantity := 0 }

def dayZ0 : DaySummary := ⟨1, [("z", 0)], [("A", ⟨machA, [], []⟩)], [("steam", 0)]⟩

def resZ0 : SimulationResult := ⟨plantZ, [dayZ0]⟩

theorem simulate_plantZ0 : simulate plantZ [orderZ0] = .ok resZ0 := by
  have hdates : sortedDates [orderZ0] = [1] := by decide
  simp +decide [simulate, hdates, simulateDays, day_summary_for, applyOrders,
    applyOrder, applyStepsLoop, applyShare, scale_values, resolve_step_machines,
    Plant.get_product, Plant.get_machine, optTruthy, MachineUsage.add_capacity,
    MachineUsage.add_resource_balance, addEntries, dadd, dgetD, dget, dset,
    plantZ, orderZ0, prodZ, stepPlusSteam, stepMinusSteam, machA, groupG,
    resZ0, dayZ0] <;> norm_num

/-- C10 witness: the zero-quantity order for product z is still recorded:
product entry 0, machine A present with empty maps, steam entry 0. -/
theorem C10_zero_quantity_order_witness :
    orderZ0.quantity = 0 ∧
    plantZ.get_product orderZ0.product_id = .ok prodZ ∧
    simulate plantZ [orderZ0] = .ok resZ0 ∧
    (∃ ds, resZ0.days = [ds] ∧ ds.date = orderZ0.date ∧
      dget ds.product_quantities prodZ.id = some 0 ∧
      (∀ step ∈ prodZ.steps, ∀ pairs,
        resolve_step_machines step orderZ0 plantZ = .ok pairs →
        (∀ pr ∈ pairs, ∃ u, dget ds.machine_usage pr.1.id = some u ∧
          u.capacity_used = [] ∧ u.resource_balance = []) ∧
        (∀ e ∈ step.resource_changes, dget ds.resource_balance e.1 = some 0))) := by
  have hq : orderZ0.quantity = 0 := rfl
  have hp : plantZ.get_product orderZ0.product_id = .ok prodZ := by
    simp [Plant.get_product, plantZ, orderZ0, dget]
  exact ⟨hq, hp, simulate_plantZ0, C10_zero_quantity_order hq hp simulate_plantZ0⟩

/-! ### C3: order-independence of simulate -/

/-- Extensional equality of dicts: Python `==` on `dict`s ignores insertion
order and compares the key-value mappings. -/
def dictEquiv {α : Type} (d1 d2 : List (String × α)) : Prop :=
  ∀ k, dget d1 k = dget d2 k

/-- Python `==` on `MachineUsage` values (dict fields compared as maps). -/
def usageEquiv (u1 u2 : MachineUsage) : Prop :=
  u1.machine = u2.machine ∧ dictEquiv u1.capacity_used u2.capacity_used ∧
  dictEquiv u1.resource_balance u2.resource_balance

def optUsageEquiv : Option MachineUsage → Option MachineUsage → Prop
  | none, none => True
  | some u1, some u2 => usageEquiv u1 u2
  | _, _ => False

def stateEquiv (st1 st2 : DayState) : Prop :=
  dictEquiv st1.product_totals st2.product_totals ∧
  (∀ k, optUsageEquiv (dget st1.machine_usage k) (dget st2.machine_usage k)) ∧
  dictEquiv st1.resource_balance st2.resource_balance

/-- Python `==` on `DaySummary` values. -/
def dayEquiv (ds1 ds2 : DaySummary) : Prop :=
  ds1.date = ds2.date ∧
  dictEquiv ds1.product_quantities ds2.product_quantities ∧
  (∀ k, optUsageEquiv (dget ds1.machine_usage k) (dget ds2.machine_usage k)) ∧
  dictEquiv ds1.resource_balance ds2.resource_balance

theorem dictEquiv_refl {α : Type} (d : List (String × α)) : dictEquiv d d :=
  fun _ => rfl

theorem dictEquiv_symm {α : Type} {d1 d2 : List (String × α)}
    (h : dictEquiv d1 d2) : dictEquiv d2 d1 :=
  fun k => (h k).symm

theorem dictEquiv_trans {α : Type} {d1 d2 d3 : List (String × α)}
    (h1 : dictEquiv d1 d2) (h2 : dictEquiv d2 d3) : dictEquiv d1 d3 :=
  fun k => (h1 k).trans (h2 k)

theorem usageEquiv_refl (u : MachineUsage) : usageEquiv u u :=
  ⟨rfl, dictEquiv_refl _, dictEquiv_refl _⟩

theorem usageEquiv_symm {u1 u2 : MachineUsage} (h : usageEquiv u1 u2) :
    usageEquiv u2 u1 :=
  ⟨h.1.symm, dictEquiv_symm h.2.1, dictEquiv_symm h.2.2⟩

theorem usageEquiv_trans {u1 u2 u3 : MachineUsage}
    (h1 : usageEquiv u1 u2) (h2 : usageEquiv u2 u3) : usageEquiv u1 u3 :=
  ⟨h1.1.trans h2.1, dictEquiv_trans h1.2.1 h2.2.1, dictEquiv_trans h1.2.2 h2.2.2⟩

theorem optUsageEquiv_refl (ou : Option MachineUsage) : optUsageEquiv ou ou := by
  cases ou with
  | none => trivial
  | some u => exact usageEquiv_refl u

theorem optUsageEquiv_symm {ou1 ou2 : Option MachineUsage}
    (h : optUsageEquiv ou1 ou2) : optUsageEquiv ou2 ou1 := by
  cases ou1 <;> cases ou2 <;> first
    | trivial
    | exact usageEquiv_symm h

theorem optUsageEquiv_trans {ou1 ou2 ou3 : Option MachineUsage}
    (h1 : optUsageEquiv ou1 ou2) (h2 : optUsageEquiv ou2 ou3) :
    optUsageEquiv ou1 ou3 := by
  cases ou1 <;> cases ou2 <;> cases ou3 <;> first
    | trivial
    | exact absurd h1 id
    | exact absurd h2 id
    | exact usageEquiv_trans h1 h2

theorem stateEquiv_refl (st : DayState) : stateEquiv st st :=
  ⟨dictEquiv_refl _, fun k => optUsageEquiv_refl _, dictEquiv_refl _⟩

theorem stateEquiv_symm {st1 st2 : DayState} (h : stateEquiv st1 st2) :
    stateEquiv st2 st1 :=
  ⟨dictEquiv_symm h.1, fun k => optUsageEquiv_symm (h.2.1 k), dictEquiv_symm h.2.2⟩

theorem stateEquiv_trans {st1 st2 st3 : DayState}
    (h1 : stateEquiv st1 st2) (h2 : stateEquiv st2 st3) : stateEquiv st1 st3 :=
  ⟨dictEquiv_trans h1.1 h2.1, fun k => optUsageEquiv_trans (h1.2.1 k) (h2.2.1 k),
    dictEquiv_trans h1.2.2 h2.2.2⟩

theorem sumAt_zero_of_no_nonzero {vs : List (String × ℚ)} {k : String}
    (h : ∀ p ∈ vs, p.1 = k → p.2 = 0) : sumAt vs k = 0 := by
  induction vs with
  | nil => rfl
  | cons p rest ih =>
    rw [sumAt_cons, ih (fun p2 hp2 => h p2 (List.mem_cons_of_mem _ hp2))]
    by_cases hp : p.1 = k
    · rw [if_pos hp, h p (List.mem_cons_self _ _) hp]
      ring
    · rw [if_neg hp]
      ring

/-- Closed form for a lookup after the `defaultdict` accumulation loop. -/
theorem dget_foldl_dadd :
    ∀ (vs rb : List (String × ℚ)) (k : String),
    dget (vs.foldl (fun rb p => dadd rb p.1 p.2) rb) k
      = if vs.any (fun p => p.1 == k) || (dget rb k).isSome then
          some (dgetD rb k + sumAt vs k)
        else none := by
  intro vs
  induction vs with
  | nil =>
    intro rb k
    rw [List.foldl_nil, List.any_nil, Bool.false_or, sumAt_nil]
    cases hg : dget rb k with
    | none => simp
    | some v => simp [dgetD, hg]
  | cons p rest ih =>
    intro rb k
    simp only [List.foldl_cons]
    rw [ih (dadd rb p.1 p.2) k, sumAt_cons, List.any_cons]
    by_cases hpk : p.1 = k
    · have hbeq : (p.1 == k) = true := by simp [hpk]
      have hsome : (dget (dadd rb p.1 p.2) k).isSome = true := by
        rw [dget_dadd, if_pos hpk.symm]
        rfl
      have hD : dgetD (dadd rb p.1 p.2) k = dgetD rb k + p.2 := by
        rw [dgetD_dadd, if_pos hpk.symm, hpk]
      have hcond1 : ((rest.any fun p => p.1 == k)
          || (dget (dadd rb p.1 p.2) k).isSome) = true := by
        rw [hsome, Bool.or_true]
      have hcond2 : (((p.1 == k) || rest.any (fun p => p.1 == k))
          || (dget rb k).isSome) = true := by
        rw [hbeq, Bool.true_or, Bool.true_or]
      rw [if_pos hcond1, if_pos hcond2, hD, if_pos hpk]
      congr 1
      ring
    · have hbeq : (p.1 == k) = false := by simp [hpk]
      have hget : dget (dadd rb p.1 p.2) k = dget rb k := by
        rw [dget_dadd]
        exact if_neg (fun hh => hpk hh.symm)
      have hD : dgetD (dadd rb p.1 p.2) k = dgetD rb k := by
        rw [dgetD_dadd]
        exact if_neg (fun hh => hpk hh.symm)
      rw [hbeq, hget, hD, Bool.false_or, if_neg hpk]
      by_cases hc : (rest.any (fun p => p.1 == k) || (dget rb k).isSome) = true
      · rw [if_pos hc, if_pos hc]
        congr 1
        ring
      · rw [if_neg hc, if_neg hc]

/-- Closed form for a lookup after `add_capacity`/`add_resource_balance`'s
zero-skipping accumulation loop. -/
theorem dget_addEntries :
    ∀ (vs m : List (String × ℚ)) (k : String),
    dget (addEntries m vs) k
      = if vs.any (fun p => p.1 == k && decide (p.2 ≠ 0)) then
          some (dgetD m k + sumAt vs k)
        else dget m k := by
  intro vs
  induction vs with
  | nil =>
    intro m k
    rw [show addEntries m [] = m from rfl, List.any_nil, if_neg (by simp)]
  | cons p rest ih =>
    intro m k
    rw [List.any_cons, sumAt_cons]
    by_cases hp : p.2 = 0
    · have hstep : addEntries m (p :: rest) = addEntries m rest := by
        unfold addEntries
        simp only [List.foldl_cons, if_pos hp]
      have hhead : (p.1 == k && decide (p.2 ≠ 0)) = false := by
        simp [hp]
      rw [hstep, ih m k, hhead, Bool.false_or, hp]
      by_cases hc : rest.any (fun p => p.1 == k && decide (p.2 ≠ 0)) = true
      · rw [if_pos hc, if_pos hc]
        congr 1
        by_cases hpk : p.1 = k
        · rw [if_pos hpk]
          ring
        · rw [if_neg hpk]
          ring
      · rw [if_neg hc, if_neg hc]
    · have hstep : addEntries m (p :: rest)
          = addEntries (dset m p.1 (dgetD m p.1 + p.2)) rest := by
        unfold addEntries
        simp only [List.foldl_cons, if_neg hp]
      rw [hstep, ih _ k]
      by_cases hpk : p.1 = k
      · have hhead : (p.1 == k && decide (p.2 ≠ 0)) = true := by
          simp [hpk, hp]
        rw [hhead, Bool.true_or, if_pos rfl, if_pos hpk]
        by_cases hc : rest.any (fun p => p.1 == k && decide (p.2 ≠ 0)) = true
        · rw [if_pos hc, dgetD_dset, if_pos hpk.symm, hpk]
          congr 1
          ring
        · rw [if_neg hc, dget_dset, if_pos hpk.symm]
          have hrest0 : sumAt rest k = 0 := by
            apply sumAt_zero_of_no_nonzero
            intro p2 hp2 hp2k
            by_contra hnz
            have : rest.any (fun p => p.1 == k && decide (p.2 ≠ 0)) = true := by
              rw [List.any_eq_true]
              exact ⟨p2, hp2, by simp [hp2k, hnz]⟩
            exact hc this
          rw [hrest0, hpk]
          congr 1
          ring
      · have hhead : (p.1 == k && decide (p.2 ≠ 0)) = false := by
          simp [hpk]
        have hD : dgetD (dset m p.1 (dgetD m p.1 + p.2)) k = dgetD m k := by
          rw [dgetD_dset, if_neg (fun hh => hpk hh.symm)]
        have hG : dget (dset m p.1 (dgetD m p.1 + p.2)) k = dget m k := by
          rw [dget_dset, if_neg (fun hh => hpk hh.symm)]
        rw [hhead, Bool.false_or, hD, hG, if_neg hpk]
        by_cases hc : rest.any (fun p => p.1 == k && decide (p.2 ≠ 0)) = true
        · rw [if_pos hc, if_pos hc]
          congr 1
          ring
        · rw [if_neg hc, if_neg hc]

theorem dgetD_congr {m1 m2 : List (String × ℚ)} (h : dictEquiv m1 m2) (k : String) :
    dgetD m1 k = dgetD m2 k := by
  rw [dgetD, dgetD, h k]

theorem addEntries_congr {m1 m2 : List (String × ℚ)} (h : dictEquiv m1 m2)
    (vs : List (String × ℚ)) : dictEquiv (addEntries m1 vs) (addEntries m2 vs) := by
  intro k
  rw [dget_addEntries, dget_addEntries, dgetD_congr h k, h k]

theorem foldl_dadd_congr {rb1 rb2 : List (String × ℚ)} (h : dictEquiv rb1 rb2)
    (vs : List (String × ℚ)) :
    dictEquiv (vs.foldl (fun rb p => dadd rb p.1 p.2) rb1)
              (vs.foldl (fun rb p => dadd rb p.1 p.2) rb2) := by
  intro k
  rw [dget_foldl_dadd, dget_foldl_dadd, dgetD_congr h k, h k]

theorem dadd_congr {d1 d2 : List (String × ℚ)} (h : dictEquiv d1 d2) (k : String) (v : ℚ) :
    dictEquiv (dadd d1 k v) (dadd d2 k v) := by
  intro k2
  rw [dget_dadd, dget_dadd, dgetD_congr h k, h k2]

theorem addEntries_comm (m vs1 vs2 : List (String × ℚ)) :
    dictEquiv (addEntries (addEntries m vs1) vs2)
              (addEntries (addEntries m vs2) vs1) := by
  intro k
  rw [dget_addEntries vs2, dget_addEntries vs1 m, dget_addEntries vs1,
    dget_addEntries vs2 m, dgetD_addEntries, dgetD_addEntries]
  by_cases h1 : vs1.any (fun p => p.1 == k && decide (p.2 ≠ 0)) = true <;>
    by_cases h2 : vs2.any (fun p => p.1 == k && decide (p.2 ≠ 0)) = true
  · simp only [if_pos h1, if_pos h2]
    congr 1
    ring
  · have hS2 : sumAt vs2 k = 0 := by
      apply sumAt_zero_of_no_nonzero
      intro p hp hpk
      by_contra hnz
      exact h2 (List.any_eq_true.mpr ⟨p, hp, by simp [hpk, hnz]⟩)
    simp only [if_pos h1, if_neg h2]
    rw [hS2]
    congr 1
    ring
  · have hS1 : sumAt vs1 k = 0 := by
      apply sumAt_zero_of_no_nonzero
      intro p hp hpk
      by_contra hnz
      exact h1 (List.any_eq_true.mpr ⟨p, hp, by simp [hpk, hnz]⟩)
    simp only [if_neg h1, if_pos h2]
    rw [hS1]
    congr 1
    ring
  · simp only [if_neg h1, if_neg h2]

theorem isSome_foldl_dadd (vs rb : List (String × ℚ)) (k : String) :
    (dget (vs.foldl (fun rb p => dadd rb p.1 p.2) rb) k).isSome
      = (vs.any (fun p => p.1 == k) || (dget rb k).isSome) := by
  rw [dget_foldl_dadd]
  by_cases hc : (vs.any (fun p => p.1 == k) || (dget rb k).isSome) = true
  · rw [if_pos hc, hc]
    rfl
  · rw [if_neg hc]
    cases hcc : (vs.any (fun p => p.1 == k) || (dget rb k).isSome) with
    | true => exact absurd hcc hc
    | false => rfl

theorem foldl_dadd_comm (rb vs1 vs2 : List (String × ℚ)) :
    dictEquiv
      (vs2.foldl (fun rb p => dadd rb p.1 p.2) (vs1.foldl (fun rb p => dadd rb p.1 p.2) rb))
      (vs1.foldl (fun rb p => dadd rb p.1 p.2)
        (vs2.foldl (fun rb p => dadd rb p.1 p.2) rb)) := by
  intro k
  rw [dget_foldl_dadd vs2, isSome_foldl_dadd vs1, dgetD_foldl_dadd vs1,
    dget_foldl_dadd vs1, isSome_foldl_dadd vs2, dgetD_foldl_dadd vs2]
  have hco : ((vs2.any fun p => p.1 == k)
        || ((vs1.any fun p => p.1 == k) || (dget rb k).isSome))
      = ((vs1.any fun p => p.1 == k)
        || ((vs2.any fun p => p.1 == k) || (dget rb k).isSome)) := by
    cases vs1.any fun p => p.1 == k <;> cases vs2.any fun p => p.1 == k <;>
      cases (dget rb k).isSome <;> rfl
  rw [hco]
  by_cases hc : ((vs1.any fun p => p.1 == k)
      || ((vs2.any fun p => p.1 == k) || (dget rb k).isSome)) = true
  · rw [if_pos hc, if_pos hc]
    congr 1
    ring
  · rw [if_neg hc, if_neg hc]

/-- The usage value written by one `applyShare` iteration. -/
def usageF (u : MachineUsage) (ca ra : List (String × ℚ)) : MachineUsage :=
  (u.add_capacity ca).add_resource_balance ra

theorem usageF_machine (u : MachineUsage) (ca ra : List (String × ℚ)) :
    (usageF u ca ra).machine = u.machine := rfl

theorem usageF_congr {u1 u2 : MachineUsage} (h : usageEquiv u1 u2)
    (ca ra : List (String × ℚ)) : usageEquiv (usageF u1 ca ra) (usageF u2 ca ra) :=
  ⟨h.1, addEntries_congr h.2.1 ca, addEntries_congr h.2.2 ra⟩

theorem usageF_comm (u : MachineUsage) (ca1 ra1 ca2 ra2 : List (String × ℚ)) :
    usageEquiv (usageF (usageF u ca1 ra1) ca2 ra2)
               (usageF (usageF u ca2 ra2) ca1 ra1) :=
  ⟨rfl, addEntries_comm u.capacity_used ca1 ca2, addEntries_comm u.resource_balance ra1 ra2⟩

/-- The usage stored by `applyShare` at the pair's machine id. -/
def shareUsage (o : ProductionOrder) (s : RecipeStep) (st : DayState)
    (pr : Machine × ℚ) : MachineUsage :=
  usageF ((dget st.machine_usage pr.1.id).getD ⟨pr.1, [], []⟩)
    (scale_values s.capacity_usage (o.quantity * pr.2))
    (scale_values s.resource_changes (o.quantity * pr.2))

theorem dget_applyShare_mu (o : ProductionOrder) (s : RecipeStep) (st : DayState)
    (pr : Machine × ℚ) (k : String) :
    dget (applyShare o s st pr).machine_usage k
      = if k = pr.1.id then some (shareUsage o s st pr)
        else dget st.machine_usage k := by
  rw [applyShare_machine_usage, dget_dset]
  rfl

theorem applyShare_congr (o : ProductionOrder) (s : RecipeStep) (pr : Machine × ℚ)
    {st1 st2 : DayState} (h : stateEquiv st1 st2) :
    stateEquiv (applyShare o s st1 pr) (applyShare o s st2 pr) := by
  have husage : usageEquiv (shareUsage o s st1 pr) (shareUsage o s st2 pr) := by
    unfold shareUsage
    apply usageF_congr
    have h0 := h.2.1 pr.1.id
    cases hg1 : dget st1.machine_usage pr.1.id <;>
      cases hg2 : dget st2.machine_usage pr.1.id <;>
      rw [hg1, hg2] at h0
    · exact usageEquiv_refl _
    · exact absurd h0 id
    · exact absurd h0 id
    · exact h0
  refine ⟨?_, ?_, ?_⟩
  · rw [applyShare_product_totals, applyShare_product_totals]
    exact h.1
  · intro k
    rw [dget_applyShare_mu, dget_applyShare_mu]
    by_cases hk : k = pr.1.id
    · rw [if_pos hk, if_pos hk]
      exact husage
    · rw [if_neg hk, if_neg hk]
      exact h.2.1 k
  · rw [applyShare_resource_balance, applyShare_resource_balance]
    exact foldl_dadd_congr h.2.2 _

theorem applyShare_comm (o1 o2 : ProductionOrder) (s1 s2 : RecipeStep)
    (pr1 pr2 : Machine × ℚ) (hm : pr1.1.id = pr2.1.id → pr1.1 = pr2.1) (st : DayState) :
    stateEquiv (applyShare o2 s2 (applyShare o1 s1 st pr1) pr2)
               (applyShare o1 s1 (applyShare o2 s2 st pr2) pr1) := by
  refine ⟨?_, ?_, ?_⟩
  · rw [applyShare_product_totals, applyShare_product_totals,
      applyShare_product_totals, applyShare_product_totals]
    exact dictEquiv_refl _
  · intro k
    rw [dget_applyShare_mu o2 s2 (applyShare o1 s1 st pr1) pr2 k,
      dget_applyShare_mu o1 s1 (applyShare o2 s2 st pr2) pr1 k]
    by_cases hk2 : k = pr2.1.id <;> by_cases hk1 : k = pr1.1.id
    · -- both ids equal k, so the two machines coincide
      have hid : pr1.1.id = pr2.1.id := by rw [← hk1, ← hk2]
      have hmach : pr1.1 = pr2.1 := hm hid
      rw [if_pos hk2, if_pos hk1]
      show usageEquiv (shareUsage o2 s2 (applyShare o1 s1 st pr1) pr2)
        (shareUsage o1 s1 (applyShare o2 s2 st pr2) pr1)
      unfold shareUsage
      rw [dget_applyShare_mu o1 s1 st pr1 pr2.1.id,
        dget_applyShare_mu o2 s2 st pr2 pr1.1.id, if_pos hid.symm, if_pos hid]
      simp only [Option.getD_some]
      unfold shareUsage
      rw [hid, hmach]
      exact usageF_comm _ _ _ _ _
    · -- k = mid2 ≠ mid1
      have hneq : ¬ pr2.1.id = pr1.1.id := fun hh => hk1 (hk2.trans hh)
      rw [if_pos hk2, if_neg hk1, dget_applyShare_mu o2 s2 st pr2 k, if_pos hk2]
      have heq : shareUsage o2 s2 (applyShare o1 s1 st pr1) pr2
          = shareUsage o2 s2 st pr2 := by
        unfold shareUsage
        rw [dget_applyShare_mu o1 s1 st pr1 pr2.1.id, if_neg hneq]
      rw [heq]
      exact optUsageEquiv_refl _
    · -- k = mid1 ≠ mid2
      have hneq : ¬ pr1.1.id = pr2.1.id := fun hh => hk2 (hk1.trans hh)
      rw [if_neg hk2, if_pos hk1, dget_applyShare_mu o1 s1 st pr1 k, if_pos hk1]
      have heq : shareUsage o1 s1 (applyShare o2 s2 st pr2) pr1
          = shareUsage o1 s1 st pr1 := by
        unfold shareUsage
        rw [dget_applyShare_mu o2 s2 st pr2 pr1.1.id, if_neg hneq]
      rw [heq]
      exact optUsageEquiv_refl _
    · rw [if_neg hk2, if_neg hk1, dget_applyShare_mu o1 s1 st pr1 k, if_neg hk1,
        dget_applyShare_mu o2 s2 st pr2 k, if_neg hk2]
      exact optUsageEquiv_refl _
  · rw [applyShare_resource_balance, applyShare_resource_balance,
      applyShare_resource_balance, applyShare_resource_balance]
    exact foldl_dadd_comm st.resource_balance _ _

/-- A primitive mutation of the day accumulators: the product-total update or
one `applyShare` iteration. -/
inductive DayUpd where
  | prodAdd (pid : String) (q : ℚ) : DayUpd
  | share (o : ProductionOrder) (step : RecipeStep) (pr : Machine × ℚ) : DayUpd

def applyUpd (st : DayState) : DayUpd → DayState
  | .prodAdd pid q => { st with product_totals := dadd st.product_totals pid q }
  | .share o step pr => applyShare o step st pr

theorem applyUpd_congr {st1 st2 : DayState} (h : stateEquiv st1 st2) (u : DayUpd) :
    stateEquiv (applyUpd st1 u) (applyUpd st2 u) := by
  cases u with
  | prodAdd pid q =>
    exact ⟨dadd_congr h.1 pid q, h.2.1, h.2.2⟩
  | share o step pr =>
    exact applyShare_congr o step pr h

/-- Commutativity of two primitive updates, up to dict equality. -/
def UpdComm (u1 u2 : DayUpd) : Prop :=
  ∀ st, stateEquiv (applyUpd (applyUpd st u1) u2) (applyUpd (applyUpd st u2) u1)

theorem updComm_prod_prod (p1 p2 : String) (q1 q2 : ℚ) :
    UpdComm (.prodAdd p1 q1) (.prodAdd p2 q2) := by
  intro st
  refine ⟨?_, fun k => optUsageEquiv_refl _, dictEquiv_refl _⟩
  intro k
  show dget (dadd (dadd st.product_totals p1 q1) p2 q2) k
    = dget (dadd (dadd st.product_totals p2 q2) p1 q1) k
  rw [dget_dadd, dget_dadd, dget_dadd, dget_dadd, dgetD_dadd, dgetD_dadd]
  by_cases h2 : k = p2 <;> by_cases h1 : k = p1
  · have h12 : p2 = p1 := by rw [← h2, ← h1]
    rw [if_pos h2, if_pos h1, if_pos h12, if_pos h12.symm, h12]
    congr 1
    ring
  · rw [if_pos h2, if_neg h1, if_neg (fun hh : p2 = p1 => h1 (h2.trans hh)), if_pos h2]
  · rw [if_neg h2, if_pos h1, if_pos h1, if_neg (fun hh : p1 = p2 => h2 (h1.trans hh))]
  · rw [if_neg h2, if_neg h1, if_neg h1, if_neg h2]

theorem updComm_prod_share (p : String) (q : ℚ) (o : ProductionOrder)
    (step : RecipeStep) (pr : Machine × ℚ) :
    UpdComm (.prodAdd p q) (.share o step pr) ∧ UpdComm (.share o step pr) (.prodAdd p q) := by
  constructor <;>
  · intro st
    refine ⟨?_, ?_, ?_⟩
    · intro k
      rfl
    · intro k
      exact optUsageEquiv_refl _
    · intro k
      rfl

theorem foldl_upds_congr :
    ∀ (l : List DayUpd) {st1 st2 : DayState}, stateEquiv st1 st2 →
    stateEquiv (l.foldl applyUpd st1) (l.foldl applyUpd st2) := by
  intro l
  induction l with
  | nil => intro st1 st2 h; exact h
  | cons u rest ih =>
    intro st1 st2 h
    rw [List.foldl_cons, List.foldl_cons]
    exact ih (applyUpd_congr h u)

theorem foldl_upds_bubble {u : DayUpd} :
    ∀ (l2 : List DayUpd), (∀ u2 ∈ l2, UpdComm u u2) → ∀ st,
    stateEquiv (l2.foldl applyUpd (applyUpd st u)) (applyUpd (l2.foldl applyUpd st) u) := by
  intro l2
  induction l2 with
  | nil => intro _ st; exact stateEquiv_refl _
  | cons v rest ih =>
    intro hcomm st
    rw [List.foldl_cons, List.foldl_cons]
    refine stateEquiv_trans
      (foldl_upds_congr rest (hcomm v (List.mem_cons_self _ _) st)) ?_
    exact ih (fun u2 hu2 => hcomm u2 (List.mem_cons_of_mem _ hu2)) (applyUpd st v)

theorem foldl_upds_comm :
    ∀ (l1 l2 : List DayUpd), (∀ u1 ∈ l1, ∀ u2 ∈ l2, UpdComm u1 u2) → ∀ st,
    stateEquiv (l2.foldl applyUpd (l1.foldl applyUpd st))
               (l1.foldl applyUpd (l2.foldl applyUpd st)) := by
  intro l1
  induction l1 with
  | nil => intro l2 _ st; exact stateEquiv_refl _
  | cons u rest ih =>
    intro l2 hcomm st
    rw [List.foldl_cons, List.foldl_cons]
    refine stateEquiv_trans
      (ih l2 (fun u1 h1 u2 h2 => hcomm u1 (List.mem_cons_of_mem _ h1) u2 h2)
        (applyUpd st u)) ?_
    apply foldl_upds_congr
    exact foldl_upds_bubble l2 (fun u2 h2 => hcomm u (List.mem_cons_self _ _) u2 h2) st

/-- The list of primitive updates performed by one order of the day loop. -/
def orderUpds (plant : Plant) (o : ProductionOrder) : List DayUpd :=
  match plant.get_product o.product_id with
  | .error _ => []
  | .ok product =>
    .prodAdd product.id o.quantity ::
      (product.steps.map (fun step =>
        match resolve_step_machines step o plant with
        | .error _ => []
        | .ok pairs => pairs.map (fun pr => DayUpd.share o step pr))).flatten

theorem foldl_flatten {γ δ : Type} (f : δ → γ → δ) :
    ∀ (ls : List (List γ)) (init : δ),
    ls.flatten.foldl f init = ls.foldl (fun acc xs => xs.foldl f acc) init := by
  intro ls
  induction ls with
  | nil => intro init; rfl
  | cons xs rest ih =>
    intro init
    rw [List.flatten_cons, List.foldl_append, List.foldl_cons, ih]

/-- A successful `applyStepsLoop` run equals the fold of the flattened
share updates. -/
theorem applyStepsLoop_ok_eq {plant : Plant} {o : ProductionOrder} :
    ∀ {steps : List RecipeStep} {st st2 : DayState},
    applyStepsLoop plant o steps st = .ok st2 →
    st2 = ((steps.map (fun step =>
        match resolve_step_machines step o plant with
        | .error _ => []
        | .ok pairs => pairs.map (fun pr => DayUpd.share o step pr))).flatten).foldl
      applyUpd st := by
  intro steps
  induction steps with
  | nil =>
    intro st st2 h
    unfold applyStepsLoop at h
    rw [← Except.ok.inj h]
    rfl
  | cons step rest ih =>
    intro st st2 h
    unfold applyStepsLoop at h
    cases hres : resolve_step_machines step o plant with
    | error e =>
      rw [hres] at h
      exact absurd h (by simp)
    | ok pairs =>
      rw [hres] at h
      dsimp only at h
      rw [List.map_cons, List.flatten_cons, List.foldl_append, hres]
      dsimp only
      rw [List.foldl_map]
      have hfold : (pairs.foldl (fun acc pr => applyUpd acc (DayUpd.share o step pr)) st)
          = pairs.foldl (applyShare o step) st := rfl
      rw [hfold]
      exact ih h

theorem applyOrder_ok_eq {plant : Plant} {o : ProductionOrder} {st st2 : DayState}
    (h : applyOrder plant st o = .ok st2) :
    st2 = (orderUpds plant o).foldl applyUpd st := by
  unfold applyOrder at h
  unfold orderUpds
  cases hp : plant.get_product o.product_id with
  | error e =>
    rw [hp] at h
    exact absurd h (by simp)
  | ok product =>
    rw [hp] at h
    dsimp only at h
    rw [List.foldl_cons]
    have hinit : applyUpd st (DayUpd.prodAdd product.id o.quantity)
        = { st with product_totals := dadd st.product_totals product.id o.quantity } := rfl
    rw [hinit]
    exact applyStepsLoop_ok_eq h

theorem applyOrders_ok_eq {plant : Plant} :
    ∀ {os : List ProductionOrder} {st st2 : DayState},
    applyOrders plant os st = .ok st2 →
    st2 = os.foldl (fun st o => (orderUpds plant o).foldl applyUpd st) st := by
  intro os
  induction os with
  | nil =>
    intro st st2 h
    unfold applyOrders at h
    rw [← Except.ok.inj h]
    rfl
  | cons o rest ih =>
    intro st st2 h
    unfold applyOrders at h
    cases ho : applyOrder plant st o with
    | error e =>
      rw [ho] at h
      exact absurd h (by simp)
    | ok st1 =>
      rw [ho] at h
      dsimp only at h
      rw [List.foldl_cons, ← applyOrder_ok_eq ho]
      exact ih h

theorem dget_of_mem_nodup {α : Type} :
    ∀ {d : List (String × α)}, (d.map (fun p => p.1)).Nodup →
    ∀ {k : String} {v : α}, (k, v) ∈ d → dget d k = some v := by
  intro d
  induction d with
  | nil => intro _ k v h; exact absurd h (List.not_mem_nil _)
  | cons p rest ih =>
    intro hnd k v h
    rw [List.map_cons, List.nodup_cons] at hnd
    rw [dget_cons]
    rcases List.mem_cons.mp h with h | h
    · have h1 : p.1 = k := by rw [← h]
      have h2 : p.2 = v := by rw [← h]
      rw [if_pos h1, h2]
    · have h1 : p.1 ≠ k := by
        intro hk
        apply hnd.1
        rw [hk]
        exact List.mem_map.mpr ⟨(k, v), h, rfl⟩
      rw [if_neg h1]
      exact ih hnd.2 h

/-- Under well-formedness a machine stored anywhere in the machine table is
exactly the machine found by looking up its own id. -/
theorem mem_machines_dget {p : Plant} (hwf : p.MachWF) {m : Machine}
    (hm : ∃ q ∈ p.machines, q.2 = m) : dget p.machines m.id = some m := by
  obtain ⟨q, hq, hqm⟩ := hm
  have hid : m.id = q.1 := by rw [← hqm]; exact hwf.2 q hq
  rw [hid]
  have hmem : (q.1, m) ∈ p.machines := by
    have hq1 : q = (q.1, m) := by rw [← hqm]
    rw [← hq1]
    exact hq
  exact dget_of_mem_nodup hwf.1 hmem

theorem get_machine_ok_dget {p : Plant} (hwf : p.MachWF) {mid : String} {m : Machine}
    (h : p.get_machine mid = .ok m) : dget p.machines m.id = some m := by
  unfold Plant.get_machine at h
  cases hd : dget p.machines mid with
  | none =>
    rw [hd] at h
    exact absurd h (by simp)
  | some m2 =>
    rw [hd] at h
    dsimp only at h
    have hm2 : m2 = m := Except.ok.inj h
    rw [hm2] at hd
    have hid : m.id = mid := hwf.2 _ (dget_mem hd)
    rw [hid]
    exact hd

/-- Every machine in a successfully resolved pair list is the machine the
table stores under its id: resolution cannot invent machine objects. -/
theorem resolve_ok_mem_dget {plant : Plant} (hwf : plant.MachWF)
    {step : RecipeStep} {o : ProductionOrder} {pairs : List (Machine × ℚ)}
    (h : resolve_step_machines step o plant = .ok pairs) :
    ∀ pr ∈ pairs, dget plant.machines pr.1.id = some pr.1 := by
  intro pr hpr
  unfold resolve_step_machines at h
  by_cases h1 : step.target = "order_machine"
  · rw [if_pos h1] at h
    cases hg : plant.get_machine o.machine_id with
    | error e =>
      rw [hg] at h
      exact absurd h (by simp)
    | ok machine =>
      rw [hg] at h
      dsimp only at h
      by_cases h2 : optTruthy step.required_group ∧
          machine.group_id ≠ step.required_group.getD ""
      · rw [if_pos h2] at h
        exact absurd h (by simp)
      · rw [if_neg h2] at h
        have hp : pairs = [(machine, 1)] := (Except.ok.inj h).symm
        rw [hp] at hpr
        rcases List.mem_cons.mp hpr with hpr | hpr
        · rw [hpr]
          exact get_machine_ok_dget hwf hg
        · exact absurd hpr (List.not_mem_nil _)
  · rw [if_neg h1] at h
    by_cases h2 : step.target = "machine"
    · rw [if_pos h2] at h
      by_cases h3 : optTruthy step.machine_id
      · rw [if_pos h3] at h
        cases hg : plant.get_machine (step.machine_id.getD "") with
        | error e =>
          rw [hg] at h
          exact absurd h (by simp)
        | ok machine =>
          rw [hg] at h
          dsimp only at h
          have hp : pairs = [(machine, 1)] := (Except.ok.inj h).symm
          rw [hp] at hpr
          rcases List.mem_cons.mp hpr with hpr | hpr
          · rw [hpr]
            exact get_machine_ok_dget hwf hg
          · exact absurd hpr (List.not_mem_nil _)
      · rw [if_neg h3] at h
        exact absurd h (by simp)
    · rw [if_neg h2] at h
      by_cases h4 : step.target = "group"
      · rw [if_pos h4] at h
        by_cases h5 : optTruthy step.group_id
        · rw [if_pos h5] at h
          cases hg : plant.machines_in_group (step.group_id.getD "") with
          | error e =>
            rw [hg] at h
            exact absurd h (by simp)
          | ok machines =>
            rw [hg] at h
            dsimp only at h
            cases hn : normalize_allocation machines step.allocation with
            | error e =>
              rw [hn] at h
              exact absurd h (by simp)
            | ok allocation =>
              rw [hn] at h
              dsimp only at h
              by_cases h6 : resolveLoop allocation machines = []
              · rw [if_pos h6] at h
                exact absurd h (by simp)
              · rw [if_neg h6] at h
                have hp : pairs = resolveLoop allocation machines := (Except.ok.inj h).symm
                rw [hp] at hpr
                obtain ⟨a, b⟩ := pr
                obtain ⟨hmem, -, -⟩ := resolveLoop_mem hpr
                obtain ⟨hms, -⟩ := machines_in_group_ok hg
                rw [hms] at hmem
                have hmem2 : a ∈ plant.machines.map (fun q => q.2) := List.mem_of_mem_filter hmem
                obtain ⟨q, hq, hq2⟩ := List.mem_map.mp hmem2
                exact mem_machines_dget hwf ⟨q, hq, hq2⟩
        · rw [if_neg h5] at h
          exact absurd h (by simp)
      · rw [if_neg h4] at h
        exact absurd h (by simp)

/-- Every update an order performs is either a product-total increment or an
`applyShare` of a successfully resolved (machine, share) pair of that order. -/
theorem orderUpds_mem {plant : Plant} {o : ProductionOrder} {u : DayUpd}
    (h : u ∈ orderUpds plant o) :
    (∃ pid q, u = .prodAdd pid q) ∨
    ∃ step pr pairs, u = .share o step pr ∧
      resolve_step_machines step o plant = .ok pairs ∧ pr ∈ pairs := by
  unfold orderUpds at h
  cases hp : plant.get_product o.product_id with
  | error e =>
    rw [hp] at h
    exact absurd h (List.not_mem_nil _)
  | ok product =>
    rw [hp] at h
    dsimp only at h
    rcases List.mem_cons.mp h with h | h
    · exact Or.inl ⟨product.id, o.quantity, h⟩
    · right
      rw [List.mem_flatten] at h
      obtain ⟨l, hl, hul⟩ := h
      rw [List.mem_map] at hl
      obtain ⟨step, hstep, hls⟩ := hl
      cases hres : resolve_step_machines step o plant with
      | error e =>
        simp only [hres] at hls
        rw [← hls] at hul
        exact absurd hul (List.not_mem_nil _)
      | ok pairs =>
        simp only [hres] at hls
        rw [← hls] at hul
        obtain ⟨pr, hpr, hpru⟩ := List.mem_map.mp hul
        exact ⟨step, pr, pairs, hpru.symm, hres, hpr⟩

/-- Under machine-table well-formedness any two updates of any two orders
commute. -/
theorem orderUpds_comm {plant : Plant} (hwf : plant.MachWF)
    {o1 o2 : ProductionOrder} {u1 u2 : DayUpd}
    (h1 : u1 ∈ orderUpds plant o1) (h2 : u2 ∈ orderUpds plant o2) :
    UpdComm u1 u2 := by
  rcases orderUpds_mem h1 with ⟨p1, q1, hu1⟩ | ⟨s1, pr1, ps1, hu1, hres1, hpr1⟩ <;>
    rcases orderUpds_mem h2 with ⟨p2, q2, hu2⟩ | ⟨s2, pr2, ps2, hu2, hres2, hpr2⟩
  · rw [hu1, hu2]
    exact updComm_prod_prod p1 p2 q1 q2
  · rw [hu1, hu2]
    exact (updComm_prod_share p1 q1 o2 s2 pr2).1
  · rw [hu1, hu2]
    exact (updComm_prod_share p2 q2 o1 s1 pr1).2
  · rw [hu1, hu2]
    intro st
    apply applyShare_comm
    intro hid
    have d1 := resolve_ok_mem_dget hwf hres1 pr1 hpr1
    have d2 := resolve_ok_mem_dget hwf hres2 pr2 hpr2
    rw [hid] at d1
    exact Option.some_inj.mp (d1.symm.trans d2)

theorem foldl_orders_congr {plant : Plant} :
    ∀ (os : List ProductionOrder) {st1 st2 : DayState}, stateEquiv st1 st2 →
    stateEquiv (os.foldl (fun st o => (orderUpds plant o).foldl applyUpd st) st1)
               (os.foldl (fun st o => (orderUpds plant o).foldl applyUpd st) st2) := by
  intro os
  induction os with
  | nil => intro st1 st2 h; exact h
  | cons o rest ih =>
    intro st1 st2 h
    rw [List.foldl_cons, List.foldl_cons]
    exact ih (foldl_upds_congr _ h)

/-- Folding the orders of a day in any order gives extensionally equal
accumulators. -/
theorem foldl_orders_perm {plant : Plant} (hwf : plant.MachWF) :
    ∀ {os1 os2 : List ProductionOrder}, os1.Perm os2 →
    ∀ {st1 st2 : DayState}, stateEquiv st1 st2 →
    stateEquiv (os1.foldl (fun st o => (orderUpds plant o).foldl applyUpd st) st1)
               (os2.foldl (fun st o => (orderUpds plant o).foldl applyUpd st) st2) := by
  intro os1 os2 hperm
  induction hperm with
  | nil => intro st1 st2 h; exact h
  | cons o rest ih =>
    intro st1 st2 h
    rw [List.foldl_cons, List.foldl_cons]
    exact ih (foldl_upds_congr _ h)
  | swap a b l =>
    intro st1 st2 h
    rw [List.foldl_cons, List.foldl_cons, List.foldl_cons, List.foldl_cons]
    apply foldl_orders_congr l
    refine stateEquiv_trans
      (foldl_upds_comm (orderUpds plant b) (orderUpds plant a) ?_ st1) ?_
    · intro u1 hm1 u2 hm2
      exact orderUpds_comm hwf hm1 hm2
    · exact foldl_upds_congr _ (foldl_upds_congr _ h)
  | trans p1 p2 ih1 ih2 =>
    intro st1 st2 h
    exact stateEquiv_trans (ih1 h) (ih2 (stateEquiv_refl _))

/-- Aggregating the same date's orders in permuted sequence gives `==`-equal
day summaries. -/
theorem day_summary_for_perm {plant : Plant} (hwf : plant.MachWF) {d : Nat}
    {os1 os2 : List ProductionOrder} (hperm : os1.Perm os2)
    {ds1 ds2 : DaySummary}
    (h1 : day_summary_for plant d os1 = .ok ds1)
    (h2 : day_summary_for plant d os2 = .ok ds2) :
    dayEquiv ds1 ds2 := by
  unfold day_summary_for at h1 h2
  cases ha1 : applyOrders plant os1 ⟨[], [], []⟩ with
  | error e =>
    rw [ha1] at h1
    exact absurd h1 (by simp)
  | ok st1 =>
    rw [ha1] at h1
    dsimp only at h1
    cases ha2 : applyOrders plant os2 ⟨[], [], []⟩ with
    | error e =>
      rw [ha2] at h2
      exact absurd h2 (by simp)
    | ok st2 =>
      rw [ha2] at h2
      dsimp only at h2
      have hequiv : stateEquiv st1 st2 := by
        rw [applyOrders_ok_eq ha1, applyOrders_ok_eq ha2]
        exact foldl_orders_perm hwf hperm (stateEquiv_refl _)
      rw [← Except.ok.inj h1, ← Except.ok.inj h2]
      exact ⟨rfl, hequiv.1, hequiv.2.1, hequiv.2.2⟩

theorem sortedDates_perm_eq {plan1 plan2 : List ProductionOrder}
    (hperm : plan1.Perm plan2) : sortedDates plan1 = sortedDates plan2 := by
  unfold sortedDates
  refine List.eq_of_perm_of_sorted ?_
    (List.sorted_insertionSort _ _) (List.sorted_insertionSort _ _)
  refine (List.perm_insertionSort _ _).trans
    (List.Perm.trans ?_ (List.perm_insertionSort _ _).symm)
  exact (hperm.map (fun o => o.date)).dedup

theorem simulateDays_perm {plant : Plant} (hwf : plant.MachWF)
    {plan1 plan2 : List ProductionOrder} (hperm : plan1.Perm plan2) :
    ∀ {dates : List Nat} {days1 days2 : List DaySummary},
    simulateDays plant plan1 dates = .ok days1 →
    simulateDays plant plan2 dates = .ok days2 →
    List.Forall₂ dayEquiv days1 days2 := by
  intro dates
  induction dates with
  | nil =>
    intro days1 days2 h1 h2
    unfold simulateDays at h1 h2
    rw [← Except.ok.inj h1, ← Except.ok.inj h2]
    exact List.Forall₂.nil
  | cons d rest ih =>
    intro days1 days2 h1 h2
    unfold simulateDays at h1 h2
    cases hd1 : day_summary_for plant d (plan1.filter (fun o => o.date == d)) with
    | error e =>
      rw [hd1] at h1
      exact absurd h1 (by simp)
    | ok ds1 =>
      rw [hd1] at h1
      dsimp only at h1
      cases ht1 : simulateDays plant plan1 rest with
      | error e =>
        rw [ht1] at h1
        exact absurd h1 (by simp)
      | ok tail1 =>
        rw [ht1] at h1
        dsimp only at h1
        cases hd2 : day_summary_for plant d (plan2.filter (fun o => o.date == d)) with
        | error e =>
          rw [hd2] at h2
          exact absurd h2 (by simp)
        | ok ds2 =>
          rw [hd2] at h2
          dsimp only at h2
          cases ht2 : simulateDays plant plan2 rest with
          | error e =>
            rw [ht2] at h2
            exact absurd h2 (by simp)
          | ok tail2 =>
            rw [ht2] at h2
            dsimp only at h2
            rw [← Except.ok.inj h1, ← Except.ok.inj h2]
            exact List.Forall₂.cons
              (day_summary_for_perm hwf (hperm.filter _) hd1 hd2)
              (ih ht1 ht2)

/-- C3: for a well-formed machine table, simulating a plan and any
permutation of it yields the same day summaries: pairwise equal dates and
`==`-equal (key-for-key) product_quantities, machine_usage — including each
machine's capacity_used and resource_balance — and day resource_balance. -/
theorem C3_order_independence {plant : Plant} {plan1 plan2 : List ProductionOrder}
    {res1 res2 : SimulationResult} (hwf : plant.MachWF) (hperm : plan1.Perm plan2)
    (h1 : simulate plant plan1 = .ok res1) (h2 : simulate plant plan2 = .ok res2) :
    List.Forall₂ dayEquiv res1.days res2.days := by
  unfold simulate at h1 h2
  cases hs1 : simulateDays plant plan1 (sortedDates plan1) with
  | error e =>
    rw [hs1] at h1
    exact absurd h1 (by simp)
  | ok days1 =>
    rw [hs1] at h1
    dsimp only at h1
    cases hs2 : simulateDays plant plan2 (sortedDates plan2) with
    | error e =>
      rw [hs2] at h2
      exact absurd h2 (by simp)
    | ok days2 =>
      rw [hs2] at h2
      dsimp only at h2
      have hd1 : res1.days = days1 := by rw [← Except.ok.inj h1]
      have hd2 : res2.days = days2 := by rw [← Except.ok.inj h2]
      rw [hd1, hd2]
      rw [sortedDates_perm_eq hperm] at hs1
      exact simulateDays_perm hwf hperm hs1 hs2

/-- Evaluation of the two-day plan given in ascending date order; the result
is the same as for the descending presentation. -/
theorem simulate_plantZ_two_rev : simulate plantZ [orderZ, orderZ2] = .ok resZ12 := by
  have hdates : sortedDates [orderZ, orderZ2] = [1, 2] := by decide
  simp +decide [simulate, hdates, simulateDays, day_summary_for, applyOrders,
    applyOrder, applyStepsLoop, applyShare, scale_values, resolve_step_machines,
    Plant.get_product, Plant.get_machine, optTruthy, MachineUsage.add_capacity,
    MachineUsage.add_resource_balance, addEntries, dadd, dgetD, dget, dset,
    plantZ, orderZ, orderZ2, prodZ, stepPlusSteam, stepMinusSteam, machA, groupG,
    resZ12, dayZ, dayZ2] <;> norm_num

/-- C3 witness: the two-order plan in both presentations, with the well-formed
one-machine plant, yields pairwise `==`-equal day summaries. -/
theorem C3_order_independence_witness :
    plantZ.MachWF ∧
    List.Perm [orderZ2, orderZ] [orderZ, orderZ2] ∧
    simulate plantZ [orderZ2, orderZ] = .ok resZ12 ∧
    simulate plantZ [orderZ, orderZ2] = .ok resZ12 ∧
    List.Forall₂ dayEquiv resZ12.days resZ12.days :=
  ⟨by decide, List.Perm.swap orderZ orderZ2 [], simulate_plantZ_two,
    simulate_plantZ_two_rev,
    C3_order_independence (by decide) (List.Perm.swap orderZ orderZ2 [])
      simulate_plantZ_two simulate_plantZ_two_rev⟩

end PlantBalancer
